import Mathlib

/-!
Verification of the `lib/tree/disk` binary-tree store of the `mls`
repository (package `disk`: `Element`, `Tree` and their operations).

Modelling conventions, chosen to mirror the Go source:
* Go works with nil-able pointers `*Element` throughout, so the type
  `Element` below has an explicit `nil` constructor; `Element.node`
  corresponds to a non-nil pointer to an `Element` struct.
* Scalar struct fields are collected in `NodeData`.  Go `int` counters
  that the code can drive below zero (`leftCount`, `rightCount`,
  `leafIndex`) are `Int`; node indices, which are only ever assigned
  from a nonnegative counter or a breadth-first position, are `Nat`.
* `time.Time` values are modelled as a logical clock `Nat`; the zero
  value `time.Time{}` ("never") is `0`, and `t.After(u)` is `u < t`.
* Disk I/O is modelled at the record level (`elementData` values in a
  path-indexed store); JSON encode/decode of a record is the identity
  on the record's fields, and structural operations ignore I/O errors
  exactly where the source discards them.
* The queue-based breadth-first loops of the source (`Find`,
  `GetNodeByIndex`, `reassignNodeIndices`) are written with an explicit
  fuel argument so that every function is structurally recursive and
  kernel-computable; fuel `forestSize q` is always sufficient, which the
  fuel-independence lemmas below make precise.
-/

namespace disk

/-- Scalar fields of the Go `Element` struct (everything except the two
child pointers). -/
structure NodeData where
  name : String
  publicKey : List Nat
  leftCount : Int
  rightCount : Int
  filePath : String
  nodeType : String
  leafIndex : Int
  nodeIndex : Nat
  lastModified : Nat
  lastChecked : Nat
deriving DecidableEq, Repr

/-- A Go `*Element`: either the nil pointer or a node with two
(possibly nil) children. -/
inductive Element where
  | nil : Element
  | node : NodeData → Element → Element → Element
deriving DecidableEq, Repr

namespace Element

/-- Data of a node; dummy value on the nil pointer (never used by the
source, which guards every dereference). -/
def data : Element → NodeData
  | .nil => ⟨"", [], 0, 0, "", "", 0, 0, 0, 0⟩
  | .node d _ _ => d

def leftChild : Element → Element
  | .nil => .nil
  | .node _ l _ => l

def rightChild : Element → Element
  | .nil => .nil
  | .node _ _ r => r

def name (e : Element) : String := e.data.name

def publicKey (e : Element) : List Nat := e.data.publicKey

def leftCount (e : Element) : Int := e.data.leftCount

def rightCount (e : Element) : Int := e.data.rightCount

def filePath (e : Element) : String := e.data.filePath

def nodeType (e : Element) : String := e.data.nodeType

def leafIndex (e : Element) : Int := e.data.leafIndex

def nodeIndex (e : Element) : Nat := e.data.nodeIndex

def lastModified (e : Element) : Nat := e.data.lastModified

def lastChecked (e : Element) : Nat := e.data.lastChecked

/-- `Element.IsLeaf`: `e.leftChild == nil && e.rightChild == nil`. -/
def IsLeaf : Element → Bool
  | .node _ .nil .nil => true
  | _ => false

/-- `Element.NeedsUpdate`: `e.lastModified.After(e.lastChecked)`. -/
def NeedsUpdate (e : Element) : Bool := e.lastChecked < e.lastModified

/-- `Element.ParentIndex`: `-1` for the root index `0`, otherwise
`(nodeIndex - 1) / 2` (Go integer division on a nonnegative value). -/
def ParentIndex (e : Element) : Int :=
  if e.nodeIndex = 0 then -1 else ((e.nodeIndex - 1) / 2 : Nat)

/-- `Element.LeftChildIndex`: `2*nodeIndex + 1`. -/
def LeftChildIndex (e : Element) : Int := ((2 * e.nodeIndex + 1 : Nat) : Int)

/-- `Element.RightChildIndex`: `2*nodeIndex + 2`. -/
def RightChildIndex (e : Element) : Int := ((2 * e.nodeIndex + 2 : Nat) : Int)

/-- `Element.SiblingIndex`: `-1` for index `0`, `n+1` for odd `n`,
`n-1` for even `n > 0`. -/
def SiblingIndex (e : Element) : Int :=
  if e.nodeIndex = 0 then -1
  else if e.nodeIndex % 2 = 1 then ((e.nodeIndex + 1 : Nat) : Int)
  else ((e.nodeIndex - 1 : Nat) : Int)

/-- `Element.IsLeftChild`: `nodeIndex > 0 && nodeIndex % 2 == 1`. -/
def IsLeftChild (e : Element) : Bool :=
  decide (0 < e.nodeIndex) && decide (e.nodeIndex % 2 = 1)

/-- `Element.IsRightChild`: `nodeIndex > 0 && nodeIndex % 2 == 0`. -/
def IsRightChild (e : Element) : Bool :=
  decide (0 < e.nodeIndex) && decide (e.nodeIndex % 2 = 0)

end Element

/-- Number of nodes reachable from a (possibly nil) pointer.  This is a
measurement function of the verification, not a function of the source,
used to state the size claims. -/
def sizeE : Element → Nat
  | .nil => 0
  | .node _ l r => 1 + sizeE l + sizeE r

/-- All node values (non-nil subtrees) reachable from a pointer, in
preorder.  Measurement function used to quantify over the nodes of a
tree. -/
def nodesList : Element → List Element
  | .nil => []
  | .node d l r => .node d l r :: (nodesList l ++ nodesList r)

/-- Helper `countLeaves` of the source: nil counts 0, a childless node
counts 1, otherwise the sum over the two children. -/
def countLeaves : Element → Nat
  | .nil => 0
  | .node _ .nil .nil => 1
  | .node _ l r => countLeaves l + countLeaves r

/-- `Tree.GetLeaves` body (`collectLeaves`): childless nodes in
depth-first order, left before right. -/
def collectLeaves : Element → List Element
  | .nil => []
  | .node d .nil .nil => [.node d .nil .nil]
  | .node _ l r => collectLeaves l ++ collectLeaves r

/-- `collectLeafNames` of the source: names of the nodes whose recorded
`nodeType` is `"leaf"` (not the structural leaves). -/
def collectLeafNames : Element → List String
  | .nil => []
  | .node d l r =>
      if d.nodeType = "leaf" then [d.name]
      else collectLeafNames l ++ collectLeafNames r

/-- `Tree.generateFilePath`: `filepath.Join(rootPath, name + ".json")`. -/
def generateFilePath (rootPath name : String) : String :=
  rootPath ++ "/" ++ name ++ ".json"

/-- `Tree.renameIntermediateNodes` body (`updateNames`): children first,
then an intermediate node whose two child subtrees both contain
`"leaf"`-typed nodes is renamed `intermediate_<first-left>_<first-right>`
and gets the matching file path. -/
def renameIntermediateNodes (rootPath : String) : Element → Element
  | .nil => .nil
  | .node d l r =>
      let l' := renameIntermediateNodes rootPath l
      let r' := renameIntermediateNodes rootPath r
      if d.nodeType = "intermediate" then
        match collectLeafNames l', collectLeafNames r' with
        | a :: _, b :: _ =>
            let newName := "intermediate_" ++ a ++ "_" ++ b
            .node { d with name := newName,
                           filePath := generateFilePath rootPath newName } l' r'
        | _, _ => .node d l' r'
      else .node d l' r'

/-- Children of a node as queue entries, left before right, skipping nil
pointers — exactly what the breadth-first loops of the source enqueue. -/
def enqueueChildren : Element → List Element
  | .nil => []
  | .node _ l r =>
      (match l with | .nil => [] | x => [x]) ++
      (match r with | .nil => [] | x => [x])

/-- Total node count of a queue. -/
def forestSize : List Element → Nat
  | [] => 0
  | t :: ts => sizeE t + forestSize ts

/-- All nodes of a queue, element by element. -/
def nodesForest : List Element → List Element
  | [] => []
  | t :: ts => nodesList t ++ nodesForest ts

/-- A queue contains no nil pointers (invariant of every breadth-first
loop of the source). -/
def NoNil (q : List Element) : Prop := ∀ e ∈ q, e ≠ Element.nil

/-- Queue loop of `Tree.Find`, with fuel: pop the front, return it if
its name matches, otherwise enqueue its children. -/
def findAux : Nat → List Element → String → Option Element
  | 0, _, _ => none
  | _ + 1, [], _ => none
  | f + 1, t :: rest, target =>
      if t.name = target then some t
      else findAux f (rest ++ enqueueChildren t) target

/-- Queue loop of `Tree.GetNodeByIndex`, with fuel. -/
def getNodeByIndexAux : Nat → List Element → Int → Option Element
  | 0, _, _ => none
  | _ + 1, [], _ => none
  | f + 1, t :: rest, target =>
      if (t.nodeIndex : Int) = target then some t
      else getNodeByIndexAux f (rest ++ enqueueChildren t) target

/-- Breadth-first visit order of the queue loops of the source
(`reassignNodeIndices` visits and numbers nodes in exactly this order),
with fuel. -/
def bfsAux : Nat → List Element → List Element
  | 0, _ => []
  | _ + 1, [] => []
  | f + 1, t :: rest => t :: bfsAux f (rest ++ enqueueChildren t)

/-- Breadth-first traversal of a queue (fuel instantiated). -/
def bfsTraverse (q : List Element) : List Element := bfsAux (forestSize q) q

/-- Give the roots of a forest the consecutive indices `i, i+1, …` and
reattach their already renumbered children, taken in order from `cs`.
Helper of the functional rendering of `reassignNodeIndices`. -/
def assignRoots : List Element → List Element → Nat → List Element
  | [], _, _ => []
  | .nil :: rest, cs, i => assignRoots rest cs i
  | .node d .nil .nil :: rest, cs, i =>
      .node { d with nodeIndex := i } .nil .nil :: assignRoots rest cs (i + 1)
  | .node d (.node dl ll lr) .nil :: rest, cs, i =>
      match cs with
      | c :: cs' => .node { d with nodeIndex := i } c .nil :: assignRoots rest cs' (i + 1)
      | [] => .node { d with nodeIndex := i } (.node dl ll lr) .nil :: assignRoots rest [] (i + 1)
  | .node d .nil (.node dr rl rr) :: rest, cs, i =>
      match cs with
      | c :: cs' => .node { d with nodeIndex := i } .nil c :: assignRoots rest cs' (i + 1)
      | [] => .node { d with nodeIndex := i } .nil (.node dr rl rr) :: assignRoots rest [] (i + 1)
  | .node d (.node dl ll lr) (.node dr rl rr) :: rest, cs, i =>
      match cs with
      | c1 :: c2 :: cs' =>
          .node { d with nodeIndex := i } c1 c2 :: assignRoots rest cs' (i + 1)
      | _ =>
          .node { d with nodeIndex := i } (.node dl ll lr) (.node dr rl rr)
            :: assignRoots rest [] (i + 1)

/-- Level-by-level renumbering of a forest: the functional rendering of
the queue loop of `reassignNodeIndices`, which assigns each visited node
its breadth-first position.  The fuel decreases once per level. -/
def relabelAux : Nat → List Element → Nat → List Element
  | 0, _, _ => []
  | _ + 1, [], _ => []
  | f + 1, t :: rest, i =>
      let ts := t :: rest
      assignRoots ts
        (relabelAux f (ts.foldr (fun e acc => enqueueChildren e ++ acc) []) (i + ts.length)) i

/-- Children queue of a whole forest (in queue order). -/
def childrenForest (ts : List Element) : List Element :=
  ts.foldr (fun e acc => enqueueChildren e ++ acc) []

/-- `Tree.reassignNodeIndices` on the root pointer: breadth-first
renumbering starting at index 0 (no-op on nil, as in the source). -/
def reassignNodeIndices (h : Element) : Element :=
  match h with
  | .nil => .nil
  | _ => (relabelAux (sizeE h) [h] 0).headD h

/-- The `Tree` struct: storage directory, root pointer, node counter. -/
structure Tree where
  rootPath : String
  head : Element
  nextNodeIndex : Nat
deriving DecidableEq, Repr

/-- `NewTree` (directory creation ignored). -/
def NewTree (rootPath : String) : Tree := ⟨rootPath, .nil, 0⟩

/-- `Tree.Find`: breadth-first search by name. -/
def Tree.Find (t : Tree) (name : String) : Option Element :=
  match t.head with
  | .nil => none
  | h => findAux (sizeE h) [h] name

/-- `Tree.GetNodeByIndex`: breadth-first search by node index. -/
def Tree.GetNodeByIndex (t : Tree) (target : Int) : Option Element :=
  match t.head with
  | .nil => none
  | h => getNodeByIndexAux (sizeE h) [h] target

/-- `Tree.GetLeaves`. -/
def Tree.GetLeaves (t : Tree) : List Element := collectLeaves t.head

/-- `Tree.getNextLeafIndex`: one more than the maximum leaf index over
`GetLeaves`, starting the running maximum at `-1`. -/
def Tree.getNextLeafIndex (t : Tree) : Int :=
  match t.head with
  | .nil => 0
  | h => ((collectLeaves h).foldl
      (fun m l => if l.leafIndex > m then l.leafIndex else m) (-1)) + 1

/-- `insertToLeaf` of `Tree.Insert`: descend towards the subtree with
fewer leaves (ties left), split a reached leaf with a fresh intermediate
node (left = existing node, right = new node, empty payload), or attach
the new node directly into an empty child slot; returns the rebuilt
subtree together with the node counter. -/
def insertToLeaf (rootPath : String) (now : Nat) :
    Element → Element → Nat → Element × Nat
  | .nil, newNode, ctr => (newNode, ctr)
  | .node d l r, newNode, ctr =>
      if l = Element.nil ∧ r = Element.nil then
        let iName := "intermediate_" ++ d.name ++ "_" ++ newNode.name
        (.node { name := iName, publicKey := [],
                 leftCount := 1, rightCount := 1,
                 filePath := generateFilePath rootPath iName,
                 nodeType := "intermediate", leafIndex := 0,
                 nodeIndex := ctr, lastModified := now, lastChecked := 0 }
            (.node d l r) newNode, ctr + 1)
      else if countLeaves l ≤ countLeaves r then
        match l with
        | .nil => (.node { d with leftCount := 1 } newNode r, ctr)
        | .node dl cl cr =>
            let res := insertToLeaf rootPath now (.node dl cl cr) newNode ctr
            (.node { d with leftCount := d.leftCount + 1 } res.1 r, res.2)
      else
        match r with
        | .nil => (.node { d with rightCount := 1 } l newNode, ctr)
        | .node dr cl cr =>
            let res := insertToLeaf rootPath now (.node dr cl cr) newNode ctr
            (.node { d with rightCount := d.rightCount + 1 } l res.1, res.2)

/-- `Tree.Insert` (disk writes ignored; they only fail the operation on
I/O errors).  A first insert becomes the root with index 0; otherwise
`insertToLeaf` runs and the whole tree is renumbered. -/
def Tree.Insert (t : Tree) (name : String) (value : List Nat) (now : Nat) : Tree :=
  let newElement : Element :=
    .node { name := name, publicKey := value,
            leftCount := 0, rightCount := 0,
            filePath := generateFilePath t.rootPath name,
            nodeType := "leaf", leafIndex := t.getNextLeafIndex,
            nodeIndex := t.nextNodeIndex, lastModified := now, lastChecked := 0 }
      .nil .nil
  match t.head with
  | .nil =>
      { t with head := .node { newElement.data with nodeIndex := 0 } .nil .nil,
               nextNodeIndex := 1 }
  | h =>
      let res := insertToLeaf t.rootPath now h newElement (t.nextNodeIndex + 1)
      let h' := reassignNodeIndices res.1
      { t with head := h', nextNodeIndex := sizeE h' }

/-- Splice helper of `deleteNode` for a deleted node with two children:
walk to the rightmost descendant of the left child, attach the right
subtree there and set that node's `rightCount` (the aliasing of the Go
code, where the walk may stop at the left child itself, is reproduced
exactly by performing the two count updates in source order). -/
def attachRightmost (sub : Element) (rc : Int) : Element → Element
  | .nil => .nil
  | .node d l .nil => .node { d with rightCount := rc } l sub
  | .node d l (.node dr rl rr) =>
      .node d l (attachRightmost sub rc (.node dr rl rr))

/-- Top-level `rightCount` update used by the splice. -/
def setTopRightCount (e : Element) (rc : Int) : Element :=
  match e with
  | .nil => .nil
  | .node d l r => .node { d with rightCount := rc } l r

/-- `deleteNode` of `Tree.Delete`: find the first node with the target
name (node itself, then left subtree, then right subtree), remove it —
replaced by its only child, removed entirely, or spliced as in
`attachRightmost` — and decrement the counts on the search path. -/
def deleteNode : Element → String → Element × Bool
  | .nil, _ => (.nil, false)
  | .node d l r, target =>
      if d.name = target then
        match l, r with
        | .nil, .nil => (.nil, true)
        | .nil, .node dr rl rr => (.node dr rl rr, true)
        | .node dl ll lr, .nil => (.node dl ll lr, true)
        | .node dl ll lr, .node dr rl rr =>
            let rcVal := (Element.node dr rl rr).leftCount
              + (Element.node dr rl rr).rightCount + 1
            let left' := attachRightmost (.node dr rl rr) rcVal (.node dl ll lr)
            (setTopRightCount left' (left'.rightCount + rcVal), true)
      else
        match l with
        | .nil =>
            match r with
            | .nil => (.node d l r, false)
            | .node dr rl rr =>
                let resR := deleteNode (.node dr rl rr) target
                if resR.2 then
                  (.node { d with rightCount := d.rightCount - 1 } l resR.1, true)
                else (.node d l resR.1, false)
        | .node dl ll lr =>
            let resL := deleteNode (.node dl ll lr) target
            if resL.2 then
              (.node { d with leftCount := d.leftCount - 1 } resL.1 r, true)
            else
              match r with
              | .nil => (.node d resL.1 r, false)
              | .node dr rl rr =>
                  let resR := deleteNode (.node dr rl rr) target
                  if resR.2 then
                    (.node { d with rightCount := d.rightCount - 1 } resL.1 resR.1, true)
                  else (.node d resL.1 resR.1, false)

/-- `Tree.Delete`: `none` models the error returns ("tree is empty",
"element not found"), on which the Go tree is left unchanged; on success
the new head is renamed and renumbered. -/
def Tree.Delete (t : Tree) (name : String) : Option Tree :=
  match t.head with
  | .nil => none
  | h =>
      let res := deleteNode h name
      if res.2 then
        match renameIntermediateNodes t.rootPath res.1 with
        | .nil => some { t with head := .nil }
        | h1 =>
            let h2 := reassignNodeIndices h1
            some { t with head := h2, nextNodeIndex := sizeE h2 }
      else none

/-- `Tree.GetNodesNeedingUpdate`: preorder collection of the nodes with
`lastModified.After(lastChecked)`. -/
def getNodesNeedingUpdateE : Element → List Element
  | .nil => []
  | .node d l r =>
      (if d.lastChecked < d.lastModified then [Element.node d l r] else []) ++
      getNodesNeedingUpdateE l ++ getNodesNeedingUpdateE r

/-- `Tree.GetNodesNeedingUpdate` on the tree. -/
def Tree.GetNodesNeedingUpdate (t : Tree) : List Element :=
  getNodesNeedingUpdateE t.head

/-- `Tree.MarkAllAsChecked`: set every node's `lastChecked` to the
current time (one logical instant). -/
def markAllAsCheckedE (now : Nat) : Element → Element
  | .nil => .nil
  | .node d l r =>
      .node { d with lastChecked := now }
        (markAllAsCheckedE now l) (markAllAsCheckedE now r)

/-- `Tree.MarkAllAsChecked` on the tree. -/
def Tree.MarkAllAsChecked (t : Tree) (now : Nat) : Tree :=
  { t with head := markAllAsCheckedE now t.head }

/-- Caller-side payload mutation of the repository's drivers:
`Find(name)` followed by `SetValue(v)` and `MarkAsModified()` on the
found node.  With unique names the breadth-first find returns the one
node carrying the name, so the in-place pointer update is modelled by
rewriting every node of that name. -/
def setValueAndMarkModified (name : String) (v : List Nat) (now : Nat) :
    Element → Element
  | .nil => .nil
  | .node d l r =>
      let d' := if d.name = name
        then { d with publicKey := v, lastModified := now } else d
      .node d' (setValueAndMarkModified name v now l)
        (setValueAndMarkModified name v now r)

/-- The serializable `elementData` record (JSON field for a missing
child is the empty string, as with `omitempty`). -/
structure elementData where
  name : String
  publicKey : List Nat
  leftCount : Int
  rightCount : Int
  leftChildPath : String
  rightChildPath : String
  nodeType : String
  leafIndex : Int
  lastModified : Nat
  lastChecked : Nat
deriving DecidableEq, Repr

/-- Record written by `Element.saveToDisk` for a node. -/
def toElementData (e : Element) : elementData :=
  { name := e.name, publicKey := e.publicKey,
    leftCount := e.leftCount, rightCount := e.rightCount,
    leftChildPath := match e.leftChild with | .nil => "" | c => c.filePath,
    rightChildPath := match e.rightChild with | .nil => "" | c => c.filePath,
    nodeType := e.nodeType, leafIndex := e.leafIndex,
    lastModified := e.lastModified, lastChecked := e.lastChecked }

/-- The persisted store: one record per file path, newest first. -/
def Disk := List (String × elementData)

/-- Path lookup in the store. -/
def diskRead : Disk → String → Option elementData
  | [], _ => none
  | (p, d) :: rest, path => if p = path then some d else diskRead rest path

/-- `Element.saveToDisk`: fails when the element has no file path,
otherwise writes its record under its path. -/
def saveToDisk (e : Element) (disk : Disk) : Option Disk :=
  match e with
  | .nil => none
  | _ => if e.filePath = "" then none else some ((e.filePath, toElementData e) :: disk)

/-- `loadFromDisk`: read the record at a path and rebuild the element;
children are loaded recursively through their stored paths, and a child
that fails to load is silently left nil, as in the source.  The fuel
bounds the reference-chasing depth. -/
def loadFromDisk : Nat → Disk → String → Option Element
  | 0, _, _ => none
  | f + 1, disk, path =>
      match diskRead disk path with
      | none => none
      | some data =>
          let l := if data.leftChildPath = "" then Element.nil
            else (loadFromDisk f disk data.leftChildPath).getD Element.nil
          let r := if data.rightChildPath = "" then Element.nil
            else (loadFromDisk f disk data.rightChildPath).getD Element.nil
          some (.node { name := data.name, publicKey := data.publicKey,
                        leftCount := data.leftCount, rightCount := data.rightCount,
                        filePath := path, nodeType := data.nodeType,
                        leafIndex := data.leafIndex, nodeIndex := 0,
                        lastModified := data.lastModified,
                        lastChecked := data.lastChecked } l r)

/-- Names of the structurally childless nodes, in preorder.  Measurement
function used to state leaf-survival claims. -/
def leafNamesL : Element → List String
  | .nil => []
  | .node d .nil .nil => [d.name]
  | .node _ l r => leafNamesL l ++ leafNamesL r

/-- Number of nodes carrying a given name.  Measurement function for the
duplicate-name claims. -/
def countNamed : Element → String → Nat
  | .nil, _ => 0
  | .node d l r, nm =>
      (if d.name = nm then 1 else 0) + countNamed l nm + countNamed r nm

/-- Every node carrying the given name is structurally childless.
Hypothesis under which `Tree.Delete` behaves like leaf deletion (the
source deletes the first name match wherever it sits). -/
def NamedAreLeaves (x : String) (e : Element) : Prop :=
  ∀ n ∈ nodesList e, n.name = x → n.IsLeaf = true

/-- Heap labeling: the node at heap position `i` carries index `i` and
its children sit at `2i+1` and `2i+2`.  This is the premise under which
the arithmetic index helpers navigate correctly; breadth-first
renumbering satisfies it only on complete shapes. -/
def heapFrom : Element → Nat → Bool
  | .nil, _ => true
  | .node d l r, i =>
      (d.nodeIndex == i) && heapFrom l (2 * i + 1) && heapFrom r (2 * i + 2)

/-- `j` lies in the heap subtree rooted at position `a`: some number of
halvings of the 1-based position reaches `a`. -/
def InSub (a j : Nat) : Prop := ∃ k, (j + 1) / 2 ^ k = a + 1

/-- Erase all node indices (the only field `reassignNodeIndices`
touches). -/
def stripE : Element → Element
  | .nil => .nil
  | .node d l r => .node { d with nodeIndex := 0 } (stripE l) (stripE r)

/-- Erase node indices across a queue. -/
def stripF (q : List Element) : List Element := q.map stripE

/-- Renumbering with exactly sufficient fuel. -/
def relabelForest (q : List Element) (i : Nat) : List Element :=
  relabelAux (forestSize q) q i

/-- Canonical labeling: breadth-first traversal reads `0,…,size-1`. -/
def CanonicallyIndexed (h : Element) : Prop :=
  (bfsTraverse [h]).map Element.nodeIndex = List.range (sizeE h)

/-- Tree states reachable from `NewTree` by `Insert` and successful
`Delete` calls. -/
inductive Reachable : Tree → Prop where
  | new (rootPath : String) : Reachable (NewTree rootPath)
  | ins (t : Tree) (name : String) (value : List Nat) (now : Nat) :
      Reachable t → Reachable (t.Insert name value now)
  | del (t t' : Tree) (name : String) :
      Reachable t → t.Delete name = some t' → Reachable t'

/-- Tree states reachable from `NewTree` by `Insert` alone. -/
inductive InsertReachable : Tree → Prop where
  | new (rootPath : String) : InsertReachable (NewTree rootPath)
  | ins (t : Tree) (name : String) (value : List Nat) (now : Nat) :
      InsertReachable t → InsertReachable (t.Insert name value now)

/-- Every node has zero or two children (the shape of every tree built
by `Insert` alone; deletions break it). -/
def fullB : Element → Bool
  | .nil => true
  | .node _ .nil .nil => true
  | .node _ .nil (.node _ _ _) => false
  | .node _ (.node _ _ _) .nil => false
  | .node _ (.node dl a b) (.node dr c e) =>
      fullB (.node dl a b) && fullB (.node dr c e)

/-- Cached counts agree with the leaf counts of the child subtrees at
every node. -/
def gcB : Element → Bool
  | .nil => true
  | .node d l r =>
      (d.leftCount == (countLeaves l : Int)) && (d.rightCount == (countLeaves r : Int))
        && gcB l && gcB r

/-- The insertion walk as the specification sentence describes it: at a
leaf, replace it by a fresh intermediate node whose left child is the
existing leaf, whose right child is the new leaf and whose payload is
empty; otherwise descend into the child subtree with fewer leaves,
breaking ties to the left, incrementing that side's cached count.  The
bookkeeping fields of the fresh intermediate node (name, file path,
node index, timestamps) are not fixed by the sentence and are taken
from the implementation so that the two walks can be compared for
equality. -/
def specInsertWalk (rootPath : String) (now : Nat) :
    Element → Element → Nat → Element × Nat
  | .nil, newNode, ctr => (newNode, ctr)
  | .node d l r, newNode, ctr =>
      if (Element.node d l r).IsLeaf then
        let iName := "intermediate_" ++ d.name ++ "_" ++ newNode.name
        (.node { name := iName, publicKey := [], leftCount := 1, rightCount := 1,
                 filePath := generateFilePath rootPath iName,
                 nodeType := "intermediate", leafIndex := 0, nodeIndex := ctr,
                 lastModified := now, lastChecked := 0 }
            (.node d l r) newNode, ctr + 1)
      else if countLeaves l ≤ countLeaves r then
        let res := specInsertWalk rootPath now l newNode ctr
        (.node { d with leftCount := d.leftCount + 1 } res.1 r, res.2)
      else
        let res := specInsertWalk rootPath now r newNode ctr
        (.node { d with rightCount := d.rightCount + 1 } l res.1, res.2)


theorem forestSize_append (xs ys : List Element) :
    forestSize (xs ++ ys) = forestSize xs + forestSize ys := by
  induction xs with
  | nil => simp [forestSize]
  | cons t ts ih => simp [forestSize, ih]; omega

theorem nodesForest_append (xs ys : List Element) :
    nodesForest (xs ++ ys) = nodesForest xs ++ nodesForest ys := by
  induction xs with
  | nil => simp [nodesForest]
  | cons t ts ih => simp [nodesForest, ih]

theorem forestSize_enqueueChildren (d : NodeData) (l r : Element) :
    forestSize (enqueueChildren (.node d l r)) = sizeE l + sizeE r := by
  cases l <;> cases r <;> simp [enqueueChildren, forestSize, sizeE]

theorem nodesForest_enqueueChildren (d : NodeData) (l r : Element) :
    nodesForest (enqueueChildren (.node d l r)) = nodesList l ++ nodesList r := by
  cases l <;> cases r <;> simp [enqueueChildren, nodesForest, nodesList]

theorem noNil_enqueueChildren (e : Element) : NoNil (enqueueChildren e) := by
  intro x hx hxnil
  subst hxnil
  cases e with
  | nil => simp [enqueueChildren] at hx
  | node d l r => cases l <;> cases r <;> simp [enqueueChildren] at hx

theorem noNil_append {xs ys : List Element} (hx : NoNil xs) (hy : NoNil ys) :
    NoNil (xs ++ ys) := by
  intro e he
  rcases List.mem_append.1 he with h | h
  · exact hx e h
  · exact hy e h

theorem noNil_of_cons {t : Element} {ts : List Element} (h : NoNil (t :: ts)) :
    t ≠ Element.nil ∧ NoNil ts :=
  ⟨h t (by simp), fun e he => h e (by simp [he])⟩

theorem childrenForest_nil : childrenForest [] = [] := rfl

theorem childrenForest_cons (t : Element) (ts : List Element) :
    childrenForest (t :: ts) = enqueueChildren t ++ childrenForest ts := rfl

theorem noNil_childrenForest (q : List Element) : NoNil (childrenForest q) := by
  induction q with
  | nil => intro e he; simp [childrenForest_nil] at he
  | cons t ts ih =>
      rw [childrenForest_cons]
      exact noNil_append (noNil_enqueueChildren t) ih

theorem sizeE_pos_of_ne_nil {e : Element} (h : e ≠ Element.nil) : 0 < sizeE e := by
  cases e with
  | nil => exact absurd rfl h
  | node d l r => simp only [sizeE]; omega

theorem forestSize_eq_length_add (q : List Element) (h : NoNil q) :
    forestSize q = q.length + forestSize (childrenForest q) := by
  induction q with
  | nil => simp [forestSize, childrenForest_nil]
  | cons t ts ih =>
      obtain ⟨ht, hts⟩ := noNil_of_cons h
      cases t with
      | nil => exact absurd rfl ht
      | node d l r =>
          rw [childrenForest_cons, forestSize_append]
          simp only [forestSize, sizeE, forestSize_enqueueChildren, List.length_cons]
          rw [ih hts]
          omega

theorem bfsTraverse_cons (t : Element) (rest : List Element)
    (ht : t ≠ Element.nil) :
    bfsTraverse (t :: rest) = t :: bfsTraverse (rest ++ enqueueChildren t) := by
  cases t with
  | nil => exact absurd rfl ht
  | node d l r =>
      have hsz : forestSize (Element.node d l r :: rest)
          = forestSize (rest ++ enqueueChildren (Element.node d l r)) + 1 := by
        rw [forestSize_append, forestSize_enqueueChildren]
        simp [forestSize, sizeE]; omega
      unfold bfsTraverse
      rw [hsz]
      rfl

theorem bfsTraverse_rounds (ts : List Element) (h : NoNil ts) :
    ∀ cs, bfsTraverse (ts ++ cs) = ts ++ bfsTraverse (cs ++ childrenForest ts) := by
  induction ts with
  | nil => intro cs; simp [childrenForest_nil]
  | cons t ts' ih =>
      intro cs
      obtain ⟨ht, hts⟩ := noNil_of_cons h
      rw [List.cons_append, bfsTraverse_cons t (ts' ++ cs) ht,
        List.append_assoc, ih hts (cs ++ enqueueChildren t)]
      rw [childrenForest_cons, List.append_assoc]
      simp

theorem bfsTraverse_perm_nodesForest :
    ∀ (n : Nat) (q : List Element), forestSize q ≤ n → NoNil q →
      (bfsTraverse q).Perm (nodesForest q) := by
  intro n
  induction n with
  | zero =>
      intro q hq hnn
      cases q with
      | nil => simp [bfsTraverse, bfsAux, nodesForest]
      | cons t rest =>
          exfalso
          obtain ⟨ht, _⟩ := noNil_of_cons hnn
          have := sizeE_pos_of_ne_nil ht
          simp only [forestSize] at hq
          omega
  | succ n ih =>
      intro q hq hnn
      cases q with
      | nil => simp [bfsTraverse, bfsAux, nodesForest]
      | cons t rest =>
          obtain ⟨ht, hrest⟩ := noNil_of_cons hnn
          cases t with
          | nil => exact absurd rfl ht
          | node d l r =>
              rw [bfsTraverse_cons _ _ ht]
              have hsz : forestSize (rest ++ enqueueChildren (Element.node d l r)) ≤ n := by
                rw [forestSize_append, forestSize_enqueueChildren]
                simp only [forestSize, sizeE] at hq
                omega
              have hnn' : NoNil (rest ++ enqueueChildren (Element.node d l r)) :=
                noNil_append hrest (noNil_enqueueChildren _)
              have hperm := ih _ hsz hnn'
              rw [nodesForest_append, nodesForest_enqueueChildren] at hperm
              have h3 := hperm.trans
                (@List.perm_append_comm _ (nodesForest rest)
                  (nodesList l ++ nodesList r))
              have h4 := h3.cons (Element.node d l r)
              simp only [nodesForest, nodesList, List.cons_append]
              exact h4

@[simp] theorem name_node (d : NodeData) (l r : Element) :
    (Element.node d l r).name = d.name := rfl

@[simp] theorem nodeIndex_node (d : NodeData) (l r : Element) :
    (Element.node d l r).nodeIndex = d.nodeIndex := rfl

@[simp] theorem nodeType_node (d : NodeData) (l r : Element) :
    (Element.node d l r).nodeType = d.nodeType := rfl

@[simp] theorem leftChild_node (d : NodeData) (l r : Element) :
    (Element.node d l r).leftChild = l := rfl

@[simp] theorem rightChild_node (d : NodeData) (l r : Element) :
    (Element.node d l r).rightChild = r := rfl

@[simp] theorem leftCount_node (d : NodeData) (l r : Element) :
    (Element.node d l r).leftCount = d.leftCount := rfl

@[simp] theorem rightCount_node (d : NodeData) (l r : Element) :
    (Element.node d l r).rightCount = d.rightCount := rfl

@[simp] theorem lastModified_node (d : NodeData) (l r : Element) :
    (Element.node d l r).lastModified = d.lastModified := rfl

@[simp] theorem lastChecked_node (d : NodeData) (l r : Element) :
    (Element.node d l r).lastChecked = d.lastChecked := rfl

theorem stripE_eq_nil_iff (e : Element) : stripE e = Element.nil ↔ e = Element.nil := by
  cases e <;> simp [stripE]

theorem sizeE_stripE (e : Element) : sizeE (stripE e) = sizeE e := by
  induction e with
  | nil => rfl
  | node d l r ihl ihr => simp [stripE, sizeE, ihl, ihr]

theorem forestSize_stripF (q : List Element) : forestSize (stripF q) = forestSize q := by
  induction q with
  | nil => rfl
  | cons t ts ih => simp [stripF, forestSize, sizeE_stripE] at ih ⊢; omega

theorem length_of_stripF_eq {xs ys : List Element} (h : stripF xs = stripF ys) :
    xs.length = ys.length := by
  have := congrArg List.length h
  simpa [stripF] using this

/-- `assignRoots` emits one node per (non-nil) root. -/
theorem noNil_assignRoots (ts cs : List Element) (i : Nat) :
    NoNil (assignRoots ts cs i) := by
  induction ts generalizing cs i with
  | nil => intro x hx; simp [assignRoots] at hx
  | cons t rest ih =>
      intro x hx hxnil
      subst hxnil
      cases t with
      | nil => exact ih cs i _ hx rfl
      | node d l r =>
          cases l <;> cases r <;> simp only [assignRoots] at hx
          · rcases List.mem_cons.1 hx with h | h
            · cases h
            · exact ih cs (i + 1) _ h rfl
          · cases cs with
            | nil =>
                rcases List.mem_cons.1 hx with h | h
                · cases h
                · exact ih [] (i + 1) _ h rfl
            | cons c cs' =>
                rcases List.mem_cons.1 hx with h | h
                · cases h
                · exact ih cs' (i + 1) _ h rfl
          · cases cs with
            | nil =>
                rcases List.mem_cons.1 hx with h | h
                · cases h
                · exact ih [] (i + 1) _ h rfl
            | cons c cs' =>
                rcases List.mem_cons.1 hx with h | h
                · cases h
                · exact ih cs' (i + 1) _ h rfl
          · cases cs with
            | nil =>
                rcases List.mem_cons.1 hx with h | h
                · cases h
                · exact ih [] (i + 1) _ h rfl
            | cons c cs' =>
                cases cs' with
                | nil =>
                    rcases List.mem_cons.1 hx with h | h
                    · cases h
                    · exact ih [] (i + 1) _ h rfl
                | cons c2 cs'' =>
                    rcases List.mem_cons.1 hx with h | h
                    · cases h
                    · exact ih cs'' (i + 1) _ h rfl

/-- Root indices assigned by `assignRoots` are `i, i+1, …` when the
children list is long enough. -/
theorem assignRoots_map_nodeIndex (ts : List Element) :
    ∀ cs i, NoNil ts → (childrenForest ts).length ≤ cs.length →
      (assignRoots ts cs i).map Element.nodeIndex = List.range' i ts.length := by
  induction ts with
  | nil => intro cs i _ _; simp [assignRoots]
  | cons t rest ih =>
      intro cs i hnn hlen
      obtain ⟨ht, hrest⟩ := noNil_of_cons hnn
      cases t with
      | nil => exact absurd rfl ht
      | node d l r =>
          rw [childrenForest_cons, List.length_append] at hlen
          cases l <;> cases r <;>
            simp only [enqueueChildren, List.nil_append, List.append_nil,
              List.length_nil, List.length_cons, List.length_append] at hlen
          · simp only [assignRoots, List.map_cons, nodeIndex_node, List.length_cons,
              List.range'_succ]
            exact congrArg _ (ih cs (i + 1) hrest (by omega))
          · cases cs with
            | nil => simp only [List.length_nil] at hlen; omega
            | cons c cs' =>
                simp only [assignRoots, List.map_cons, nodeIndex_node, List.length_cons,
                  List.range'_succ]
                refine congrArg _ (ih cs' (i + 1) hrest ?_)
                simp only [List.length_cons] at hlen
                omega
          · cases cs with
            | nil => simp only [List.length_nil] at hlen; omega
            | cons c cs' =>
                simp only [assignRoots, List.map_cons, nodeIndex_node, List.length_cons,
                  List.range'_succ]
                refine congrArg _ (ih cs' (i + 1) hrest ?_)
                simp only [List.length_cons] at hlen
                omega
          · cases cs with
            | nil => simp only [List.length_nil] at hlen; omega
            | cons c cs' =>
                cases cs' with
                | nil => simp only [List.length_cons, List.length_nil] at hlen; omega
                | cons c2 cs'' =>
                    simp only [assignRoots, List.map_cons, nodeIndex_node, List.length_cons,
                      List.range'_succ]
                    refine congrArg _ (ih cs'' (i + 1) hrest ?_)
                    simp only [List.length_cons] at hlen
                    omega

/-- With exactly the right number of (non-nil) children supplied,
`assignRoots` reattaches them verbatim. -/
theorem assignRoots_childrenForest (ts : List Element) :
    ∀ cs i, NoNil ts → NoNil cs → cs.length = (childrenForest ts).length →
      childrenForest (assignRoots ts cs i) = cs := by
  induction ts with
  | nil =>
      intro cs i _ _ hlen
      rw [childrenForest_nil] at hlen
      simp only [assignRoots, childrenForest_nil]
      exact (List.length_eq_zero.1 hlen).symm
  | cons t rest ih =>
      intro cs i hnn hcs hlen
      obtain ⟨ht, hrest⟩ := noNil_of_cons hnn
      cases t with
      | nil => exact absurd rfl ht
      | node d l r =>
          rw [childrenForest_cons, List.length_append] at hlen
          cases l <;> cases r <;>
            simp only [enqueueChildren, List.nil_append, List.append_nil,
              List.length_nil, List.length_cons, List.length_append] at hlen
          · simp only [assignRoots, childrenForest_cons, enqueueChildren,
              List.nil_append, List.append_nil]
            exact ih cs (i + 1) hrest hcs (by omega)
          · cases cs with
            | nil => simp only [List.length_nil] at hlen; omega
            | cons c cs' =>
                obtain ⟨hc0, hcs'⟩ := noNil_of_cons hcs
                simp only [assignRoots, childrenForest_cons, enqueueChildren,
                  List.append_nil, List.nil_append]
                have hc : childrenForest (assignRoots rest cs' (i + 1)) = cs' :=
                  ih cs' (i + 1) hrest hcs'
                    (by simp only [List.length_cons] at hlen; omega)
                cases c with
                | nil => exact absurd rfl hc0
                | node dc lc rc => simp [childrenForest_cons, enqueueChildren, hc]
          · cases cs with
            | nil => simp only [List.length_nil] at hlen; omega
            | cons c cs' =>
                obtain ⟨hc0, hcs'⟩ := noNil_of_cons hcs
                simp only [assignRoots, childrenForest_cons, enqueueChildren,
                  List.append_nil, List.nil_append]
                have hc : childrenForest (assignRoots rest cs' (i + 1)) = cs' :=
                  ih cs' (i + 1) hrest hcs'
                    (by simp only [List.length_cons] at hlen; omega)
                cases c with
                | nil => exact absurd rfl hc0
                | node dc lc rc => simp [childrenForest_cons, enqueueChildren, hc]
          · cases cs with
            | nil => simp only [List.length_nil] at hlen; omega
            | cons c cs' =>
                obtain ⟨hc0, hcs'⟩ := noNil_of_cons hcs
                cases cs' with
                | nil => simp only [List.length_cons, List.length_nil] at hlen; omega
                | cons c2 cs'' =>
                    obtain ⟨hc20, hcs''⟩ := noNil_of_cons hcs'
                    simp only [assignRoots, childrenForest_cons, enqueueChildren]
                    have hc : childrenForest (assignRoots rest cs'' (i + 1)) = cs'' :=
                      ih cs'' (i + 1) hrest hcs''
                        (by simp only [List.length_cons] at hlen; omega)
                    cases c with
                    | nil => exact absurd rfl hc0
                    | node dc lc rc =>
                        cases c2 with
                        | nil => exact absurd rfl hc20
                        | node dc2 lc2 rc2 =>
                            simp [childrenForest_cons, enqueueChildren, hc]

/-- `assignRoots` only changes root indices and reattaches children
whose stripped values agree with the stripped original children. -/
theorem assignRoots_stripF (ts : List Element) :
    ∀ cs i, NoNil ts → stripF cs = stripF (childrenForest ts) →
      stripF (assignRoots ts cs i) = stripF ts := by
  induction ts with
  | nil => intro cs i _ _; simp [assignRoots, stripF]
  | cons t rest ih =>
      intro cs i hnn hstrip
      obtain ⟨ht, hrest⟩ := noNil_of_cons hnn
      cases t with
      | nil => exact absurd rfl ht
      | node d l r =>
          rw [childrenForest_cons] at hstrip
          cases l <;> cases r <;>
            simp only [enqueueChildren, List.nil_append, List.append_nil,
              stripF, List.map_append, List.map_cons, List.map_nil] at hstrip
          · simp only [assignRoots, stripF, List.map_cons]
            rw [show List.map stripE (assignRoots rest cs (i + 1)) = stripF rest
              from ih cs (i + 1) hrest hstrip]
            simp only [List.cons.injEq, and_true, stripF]
            simp [stripE]
          · cases cs with
            | nil => simp at hstrip
            | cons c cs' =>
                rw [List.map_cons] at hstrip
                injection hstrip with hc hcs'
                simp only [assignRoots, stripF, List.map_cons]
                rw [show List.map stripE (assignRoots rest cs' (i + 1)) = stripF rest
                  from ih cs' (i + 1) hrest hcs']
                simp only [List.cons.injEq, and_true, stripF]
                simp [stripE, hc]
          · cases cs with
            | nil => simp at hstrip
            | cons c cs' =>
                rw [List.map_cons] at hstrip
                injection hstrip with hc hcs'
                simp only [assignRoots, stripF, List.map_cons]
                rw [show List.map stripE (assignRoots rest cs' (i + 1)) = stripF rest
                  from ih cs' (i + 1) hrest hcs']
                simp only [List.cons.injEq, and_true, stripF]
                simp [stripE, hc]
          · cases cs with
            | nil => simp at hstrip
            | cons c cs' =>
                cases cs' with
                | nil =>
                    rw [List.map_cons] at hstrip
                    injection hstrip with hc hcs'
                    simp at hcs'
                | cons c2 cs'' =>
                    rw [List.map_cons, List.map_cons] at hstrip
                    injection hstrip with hc hrest2
                    injection hrest2 with hc2 hcs''
                    simp only [assignRoots, stripF, List.map_cons]
                    rw [show List.map stripE (assignRoots rest cs'' (i + 1)) = stripF rest
                      from ih cs'' (i + 1) hrest hcs'']
                    simp only [List.cons.injEq, and_true, stripF]
                    simp [stripE, hc, hc2]

theorem eq_nil_of_forestSize_zero {q : List Element} (hnn : NoNil q)
    (h : forestSize q = 0) : q = [] := by
  cases q with
  | nil => rfl
  | cons t rest =>
      obtain ⟨ht, _⟩ := noNil_of_cons hnn
      have := sizeE_pos_of_ne_nil ht
      simp only [forestSize] at h
      omega

theorem relabelAux_succ (f : Nat) (t : Element) (rest : List Element) (i : Nat) :
    relabelAux (f + 1) (t :: rest) i
      = assignRoots (t :: rest)
          (relabelAux f (childrenForest (t :: rest)) (i + (t :: rest).length)) i := rfl

/-- Any two sufficient fuels give the same renumbering. -/
theorem relabelAux_congr :
    ∀ f g q i, NoNil q → forestSize q ≤ f → forestSize q ≤ g →
      relabelAux f q i = relabelAux g q i := by
  intro f
  induction f with
  | zero =>
      intro g q i hnn hf _
      have hq : q = [] := eq_nil_of_forestSize_zero hnn (by omega)
      subst hq
      cases g <;> rfl
  | succ f ih =>
      intro g q i hnn hf hg
      cases q with
      | nil => cases g <;> rfl
      | cons t rest =>
          obtain ⟨ht, hrest⟩ := noNil_of_cons hnn
          have hpos : 0 < forestSize (t :: rest) := by
            have := sizeE_pos_of_ne_nil ht
            simp only [forestSize]; omega
          cases g with
          | zero => omega
          | succ g =>
              rw [relabelAux_succ, relabelAux_succ]
              have hdec := forestSize_eq_length_add (t :: rest) hnn
              have hlen : 0 < (t :: rest).length := by simp
              rw [ih g (childrenForest (t :: rest)) (i + (t :: rest).length)
                (noNil_childrenForest _) (by omega) (by omega)]

theorem relabelForest_step (q : List Element) (i : Nat) (hnn : NoNil q)
    (hne : q ≠ []) :
    relabelForest q i
      = assignRoots q (relabelForest (childrenForest q) (i + q.length)) i := by
  cases q with
  | nil => exact absurd rfl hne
  | cons t rest =>
      obtain ⟨ht, hrest⟩ := noNil_of_cons hnn
      have hpos : 0 < forestSize (t :: rest) := by
        have := sizeE_pos_of_ne_nil ht
        simp only [forestSize]; omega
      have hdec := forestSize_eq_length_add (t :: rest) hnn
      have hlen : 0 < (t :: rest).length := by simp
      unfold relabelForest
      have hfs : forestSize (t :: rest) = (forestSize (t :: rest) - 1) + 1 := by omega
      rw [hfs, relabelAux_succ]
      rw [relabelAux_congr (forestSize (t :: rest) - 1)
        (forestSize (childrenForest (t :: rest)))
        (childrenForest (t :: rest)) (i + (t :: rest).length)
        (noNil_childrenForest _) (by omega) (le_refl _)]

theorem noNil_relabelForest (q : List Element) (i : Nat) (hnn : NoNil q) :
    NoNil (relabelForest q i) := by
  cases q with
  | nil => intro x hx; simp [relabelForest, relabelAux, forestSize] at hx
  | cons t rest =>
      rw [relabelForest_step _ _ hnn (by simp)]
      exact noNil_assignRoots _ _ _

theorem stripF_relabelForest :
    ∀ (n : Nat) (q : List Element) (i : Nat), forestSize q ≤ n → NoNil q →
      stripF (relabelForest q i) = stripF q := by
  intro n
  induction n with
  | zero =>
      intro q i hq hnn
      have : q = [] := eq_nil_of_forestSize_zero hnn (by omega)
      subst this
      rfl
  | succ n ih =>
      intro q i hq hnn
      cases q with
      | nil => rfl
      | cons t rest =>
          obtain ⟨ht, _⟩ := noNil_of_cons hnn
          have hpos := sizeE_pos_of_ne_nil ht
          rw [relabelForest_step _ _ hnn (by simp)]
          refine assignRoots_stripF _ _ _ hnn ?_
          refine ih _ _ ?_ (noNil_childrenForest _)
          have hdec := forestSize_eq_length_add (t :: rest) hnn
          have hlen : 0 < (t :: rest).length := by simp
          omega

theorem length_relabelForest (q : List Element) (i : Nat) (hnn : NoNil q) :
    (relabelForest q i).length = q.length :=
  length_of_stripF_eq (stripF_relabelForest (forestSize q) q i (le_refl _) hnn)

/-- Breadth-first traversal of a renumbered forest reads off the
consecutive indices `i, i+1, …` — the queue loop of
`reassignNodeIndices` numbers nodes by breadth-first position. -/
theorem relabel_bfs_map_index :
    ∀ (n : Nat) (q : List Element) (i : Nat), forestSize q ≤ n → NoNil q →
      (bfsTraverse (relabelForest q i)).map Element.nodeIndex
        = List.range' i (forestSize q) := by
  intro n
  induction n with
  | zero =>
      intro q i hq hnn
      have : q = [] := eq_nil_of_forestSize_zero hnn (by omega)
      subst this
      rfl
  | succ n ih =>
      intro q i hq hnn
      cases q with
      | nil => rfl
      | cons t rest =>
          obtain ⟨ht, _⟩ := noNil_of_cons hnn
          have hpos := sizeE_pos_of_ne_nil ht
          have hlen : 0 < (t :: rest).length := by simp
          have hdecomp := forestSize_eq_length_add (t :: rest) hnn
          have hchildsz : forestSize (childrenForest (t :: rest)) ≤ n := by
            omega
          rw [relabelForest_step _ _ hnn (by simp)]
          set cs' := relabelForest (childrenForest (t :: rest))
            (i + (t :: rest).length) with hcs'
          have hnncs' : NoNil cs' :=
            noNil_relabelForest _ _ (noNil_childrenForest _)
          have hnnar : NoNil (assignRoots (t :: rest) cs' i) := noNil_assignRoots _ _ _
          have hlencs' : cs'.length = (childrenForest (t :: rest)).length := by
            rw [hcs']
            exact length_relabelForest _ _ (noNil_childrenForest _)
          have hrounds := bfsTraverse_rounds (assignRoots (t :: rest) cs' i) hnnar []
          rw [List.append_nil, List.nil_append] at hrounds
          rw [hrounds]
          rw [assignRoots_childrenForest _ _ _ hnn hnncs' hlencs']
          rw [List.map_append]
          rw [assignRoots_map_nodeIndex _ _ _ hnn (by omega)]
          rw [hcs', ih _ _ hchildsz (noNil_childrenForest _)]
          have := List.range'_append i (t :: rest).length
            (forestSize (childrenForest (t :: rest))) 1
          simp only [one_mul] at this
          rw [this]
          congr 1
          omega

theorem noNil_singleton {h : Element} (hne : h ≠ Element.nil) : NoNil [h] := by
  intro e he
  simp only [List.mem_singleton] at he
  subst he
  exact hne

theorem relabelForest_singleton (h : Element) (hne : h ≠ Element.nil) :
    ∃ x, relabelForest [h] 0 = [x] ∧ stripE x = stripE h := by
  have hnn := noNil_singleton hne
  have hlen : (relabelForest [h] 0).length = 1 := by
    rw [length_relabelForest _ _ hnn]; rfl
  have hstrip := stripF_relabelForest (forestSize [h]) [h] 0 (le_refl _) hnn
  cases hq : relabelForest [h] 0 with
  | nil => rw [hq] at hlen; simp at hlen
  | cons x rest =>
      rw [hq] at hlen hstrip
      cases rest with
      | cons y ys => simp at hlen
      | nil =>
          refine ⟨x, rfl, ?_⟩
          simp only [stripF, List.map_cons, List.map_nil] at hstrip
          exact (List.cons.inj hstrip).1

/-- What `reassignNodeIndices` produces: the same tree up to node
indices, whose breadth-first traversal reads off `0, 1, …, size-1`. -/
theorem reassign_spec (h : Element) (hne : h ≠ Element.nil) :
    stripE (reassignNodeIndices h) = stripE h
      ∧ sizeE (reassignNodeIndices h) = sizeE h
      ∧ (bfsTraverse [reassignNodeIndices h]).map Element.nodeIndex
          = List.range (sizeE (reassignNodeIndices h)) := by
  obtain ⟨x, hx, hsx⟩ := relabelForest_singleton h hne
  have hre : reassignNodeIndices h = x := by
    cases h with
    | nil => exact absurd rfl hne
    | node d l r =>
        have hfuel : relabelAux (sizeE (Element.node d l r)) [Element.node d l r] 0
            = relabelForest [Element.node d l r] 0 := by
          simp [relabelForest, forestSize]
        simp only [reassignNodeIndices]
        rw [hfuel, hx]
        rfl
  have hsize : sizeE x = sizeE h := by
    calc sizeE x = sizeE (stripE x) := (sizeE_stripE x).symm
    _ = sizeE (stripE h) := by rw [hsx]
    _ = sizeE h := sizeE_stripE h
  have hmap := relabel_bfs_map_index (forestSize [h]) [h] 0 (le_refl _)
    (noNil_singleton hne)
  rw [hx] at hmap
  have hfs : forestSize [h] = sizeE h := by simp [forestSize]
  rw [hfs] at hmap
  refine ⟨by rw [hre, hsx], by rw [hre, hsize], ?_⟩
  rw [hre, hsize, List.range_eq_range']
  exact hmap

theorem canonicallyIndexed_reassign (h : Element) (hne : h ≠ Element.nil) :
    CanonicallyIndexed (reassignNodeIndices h) :=
  (reassign_spec h hne).2.2

theorem canonicallyIndexed_perm {h : Element} (hc : CanonicallyIndexed h) :
    ((nodesList h).map Element.nodeIndex).Perm (List.range (sizeE h)) := by
  have hperm := bfsTraverse_perm_nodesForest (forestSize [h]) [h] (le_refl _)
  by_cases hne : h = Element.nil
  · subst hne
    simp [nodesList, sizeE]
  · have hp := hperm (noNil_singleton hne)
    have : nodesForest [h] = nodesList h := by simp [nodesForest]
    rw [this] at hp
    exact (hp.symm.map Element.nodeIndex).trans (by rw [hc])

theorem canonicallyIndexed_root {h : Element} (hne : h ≠ Element.nil)
    (hc : CanonicallyIndexed h) : h.nodeIndex = 0 := by
  have hcons := bfsTraverse_cons h [] hne
  rw [List.nil_append] at hcons
  unfold CanonicallyIndexed at hc
  rw [hcons] at hc
  have hpos : 0 < sizeE h := sizeE_pos_of_ne_nil hne
  have : sizeE h = (sizeE h - 1) + 1 := by omega
  rw [this, List.range_eq_range', List.range'_succ] at hc
  simp only [List.map_cons] at hc
  exact (List.cons.inj hc).1

theorem insertToLeaf_ne_nil (rootPath : String) (now : Nat) (cur newNode : Element)
    (ctr : Nat) (hcur : cur ≠ Element.nil) :
    (insertToLeaf rootPath now cur newNode ctr).1 ≠ Element.nil := by
  cases cur with
  | nil => exact absurd rfl hcur
  | node d l r =>
      rw [insertToLeaf.eq_def]
      by_cases hlr : l = Element.nil ∧ r = Element.nil
      · simp only [if_pos hlr]
        intro h; cases h
      · simp only [if_neg hlr]
        by_cases hc : countLeaves l ≤ countLeaves r
        · simp only [if_pos hc]
          cases l with
          | nil => intro h; cases h
          | node dl cl cr => intro h; cases h
        · simp only [if_neg hc]
          cases r with
          | nil => intro h; cases h
          | node dr cl cr => intro h; cases h

theorem reachable_canon {t : Tree} (ht : Reachable t)
    (hne : t.head ≠ Element.nil) : CanonicallyIndexed t.head := by
  induction ht with
  | new rootPath => exact absurd rfl hne
  | ins t name value now _ _ =>
      clear hne
      unfold Tree.Insert
      cases hh : t.head with
      | nil =>
          simp only [hh]
          unfold CanonicallyIndexed
          rfl
      | node d l r =>
          simp only [hh]
          apply canonicallyIndexed_reassign
          exact insertToLeaf_ne_nil _ _ _ _ _ (by intro h; cases h)
  | del t t' name _ hdel _ =>
      unfold Tree.Delete at hdel
      cases hh : t.head with
      | nil => rw [hh] at hdel; cases hdel
      | node d l r =>
          rw [hh] at hdel
          simp only [] at hdel
          by_cases hfound : (deleteNode (Element.node d l r) name).2
          · rw [if_pos hfound] at hdel
            cases hren : renameIntermediateNodes t.rootPath
                (deleteNode (Element.node d l r) name).1 with
            | nil =>
                rw [hren] at hdel
                cases hdel
                exact absurd rfl hne
            | node d1 l1 r1 =>
                rw [hren] at hdel
                cases hdel
                exact canonicallyIndexed_reassign (Element.node d1 l1 r1)
                  (by intro h; cases h)
          · rw [if_neg hfound] at hdel
            cases hdel

@[simp] theorem publicKey_node (d : NodeData) (l r : Element) :
    (Element.node d l r).publicKey = d.publicKey := rfl

@[simp] theorem filePath_node (d : NodeData) (l r : Element) :
    (Element.node d l r).filePath = d.filePath := rfl

@[simp] theorem leafIndex_node (d : NodeData) (l r : Element) :
    (Element.node d l r).leafIndex = d.leafIndex := rfl

@[simp] theorem isLeaf_node_nil_nil (d : NodeData) :
    (Element.node d Element.nil Element.nil).IsLeaf = true := rfl

theorem isLeaf_node_left (d dl : NodeData) (a b r : Element) :
    (Element.node d (Element.node dl a b) r).IsLeaf = false := by
  cases r <;> rfl

theorem isLeaf_node_right (d dr : NodeData) (l a b : Element) :
    (Element.node d l (Element.node dr a b)).IsLeaf = false := by
  cases l <;> rfl

/-- `GetLeaves` collects exactly the structurally childless nodes (in
depth-first order), regardless of their recorded `nodeType`. -/
theorem nodesList_node (d : NodeData) (l r : Element) :
    nodesList (Element.node d l r) = Element.node d l r :: (nodesList l ++ nodesList r) := rfl

theorem collectLeaves_eq_filter (h : Element) :
    collectLeaves h = (nodesList h).filter (fun n => n.IsLeaf) := by
  induction h with
  | nil => rfl
  | node d l r ihl ihr =>
      by_cases hlr : l = Element.nil ∧ r = Element.nil
      · obtain ⟨h1, h2⟩ := hlr
        subst h1; subst h2
        simp [collectLeaves, nodesList]
      · have hleaf : (Element.node d l r).IsLeaf = false := by
          cases l with
          | nil =>
              cases r with
              | nil => exact absurd ⟨rfl, rfl⟩ hlr
              | node dr a b => exact isLeaf_node_right d dr Element.nil a b
          | node dl a b => exact isLeaf_node_left d dl a b r
        have hcl : collectLeaves (Element.node d l r)
            = collectLeaves l ++ collectLeaves r := by
          cases l with
          | nil =>
              cases r with
              | nil => exact absurd ⟨rfl, rfl⟩ hlr
              | node dr a b => simp [collectLeaves]
          | node dl a b => cases r <;> simp [collectLeaves]
        rw [hcl, nodesList_node, List.filter_cons, List.filter_append, hleaf,
          ihl, ihr]
        simp

theorem mem_collectLeaves (h n : Element) :
    n ∈ collectLeaves h ↔ n ∈ nodesList h ∧ n.IsLeaf = true := by
  rw [collectLeaves_eq_filter, List.mem_filter]

/-- `GetNodesNeedingUpdate` collects exactly the nodes with
`lastModified` strictly after `lastChecked`. -/
theorem getNodesNeedingUpdateE_eq_filter (h : Element) :
    getNodesNeedingUpdateE h
      = (nodesList h).filter (fun n => decide (n.lastChecked < n.lastModified)) := by
  induction h with
  | nil => rfl
  | node d l r ihl ihr =>
      simp only [getNodesNeedingUpdateE, nodesList, List.filter_cons,
        List.filter_append, ihl, ihr, lastChecked_node, lastModified_node]
      by_cases hd : d.lastChecked < d.lastModified
      · simp [hd]
      · simp [hd]

theorem mem_getNodesNeedingUpdateE (h n : Element) :
    n ∈ getNodesNeedingUpdateE h
      ↔ n ∈ nodesList h ∧ n.lastChecked < n.lastModified := by
  rw [getNodesNeedingUpdateE_eq_filter, List.mem_filter]
  simp

/-- Field bookkeeping after `MarkAllAsChecked` followed by the
caller-side mutation of one name. -/
theorem modify_markAll_fields (X : String) (v : List Nat) (now now2 : Nat) :
    ∀ (h : Element), (∀ m ∈ nodesList h, m.lastModified ≤ now) →
      ∀ n ∈ nodesList (setValueAndMarkModified X v now2 (markAllAsCheckedE now h)),
        n.lastChecked = now
          ∧ (n.name = X → n.lastModified = now2)
          ∧ (n.name ≠ X → n.lastModified ≤ now) := by
  intro h
  induction h with
  | nil => intro _ n hn; simp [markAllAsCheckedE, setValueAndMarkModified, nodesList] at hn
  | node d l r ihl ihr =>
      intro hbound n hn
      simp only [markAllAsCheckedE, setValueAndMarkModified, nodesList,
        List.mem_cons, List.mem_append] at hn
      have hbl : ∀ m ∈ nodesList l, m.lastModified ≤ now := by
        intro m hm
        exact hbound m (by simp [nodesList, List.mem_cons, List.mem_append, hm])
      have hbr : ∀ m ∈ nodesList r, m.lastModified ≤ now := by
        intro m hm
        exact hbound m (by simp [nodesList, List.mem_cons, List.mem_append, hm])
      rcases hn with hn | hn | hn
      · subst hn
        by_cases hx : d.name = X
        · simp [hx]
        · simp only [name_node] at hx ⊢
          simp [hx]
          simpa using hbound (Element.node d l r) (by simp [nodesList])
      · exact ihl hbl n hn
      · exact ihr hbr n hn

/-- `countNamed` ignores node indices. -/
theorem countNamed_stripE (e : Element) (nm : String) :
    countNamed (stripE e) nm = countNamed e nm := by
  induction e with
  | nil => rfl
  | node d l r ihl ihr => simp [stripE, countNamed, ihl, ihr]

theorem countNamed_reassign (h : Element) (hne : h ≠ Element.nil) (nm : String) :
    countNamed (reassignNodeIndices h) nm = countNamed h nm := by
  have hs := (reassign_spec h hne).1
  calc countNamed (reassignNodeIndices h) nm
      = countNamed (stripE (reassignNodeIndices h)) nm := (countNamed_stripE _ _).symm
    _ = countNamed (stripE h) nm := by rw [hs]
    _ = countNamed h nm := countNamed_stripE _ _

theorem intermediate_name_ne (c nm : String) :
    ("intermediate_" ++ c ++ "_" ++ nm) ≠ nm := by
  intro h
  have hlen := congrArg String.length h
  rw [String.length_append, String.length_append, String.length_append] at hlen
  have h13 : ("intermediate_" : String).length = 13 := rfl
  have h1 : ("_" : String).length = 1 := rfl
  omega

/-- `insertToLeaf` adds exactly one node carrying the inserted name
(the created intermediate nodes carry strictly longer names). -/
theorem insertToLeaf_countNamed (rootPath : String) (now : Nat) :
    ∀ (cur newNode : Element) (ctr : Nat),
      countNamed (insertToLeaf rootPath now cur newNode ctr).1 newNode.name
        = countNamed cur newNode.name + countNamed newNode newNode.name := by
  intro cur
  induction cur with
  | nil => intro newNode ctr; simp [insertToLeaf, countNamed]
  | node d l r ihl ihr =>
      intro newNode ctr
      rw [insertToLeaf.eq_def]
      by_cases hlr : l = Element.nil ∧ r = Element.nil
      · simp only [if_pos hlr]
        have hne := intermediate_name_ne d.name newNode.name
        simp [countNamed, hne]
      · simp only [if_neg hlr]
        by_cases hc : countLeaves l ≤ countLeaves r
        · simp only [if_pos hc]
          cases l with
          | nil =>
              simp [countNamed]
              omega
          | node dl cl cr =>
              simp only [countNamed]
              rw [ihl newNode ctr]
              simp [countNamed]
              omega
        · simp only [if_neg hc]
          cases r with
          | nil =>
              simp [countNamed]
          | node dr cl cr =>
              simp only [countNamed]
              rw [ihr newNode ctr]
              simp [countNamed]
              omega

theorem markAll_fields (now : Nat) :
    ∀ (h : Element) n, n ∈ nodesList (markAllAsCheckedE now h) →
      n.lastChecked = now ∧ ∃ m ∈ nodesList h, n.lastModified = m.lastModified := by
  intro h
  induction h with
  | nil => intro n hn; simp [markAllAsCheckedE, nodesList] at hn
  | node d l r ihl ihr =>
      intro n hn
      simp only [markAllAsCheckedE, nodesList, List.mem_cons, List.mem_append] at hn
      rcases hn with hn | hn | hn
      · subst hn
        exact ⟨rfl, Element.node d l r, by simp [nodesList], rfl⟩
      · obtain ⟨hc, m, hm, he⟩ := ihl n hn
        exact ⟨hc, m, by simp [nodesList, List.mem_cons, List.mem_append, hm], he⟩
      · obtain ⟨hc, m, hm, he⟩ := ihr n hn
        exact ⟨hc, m, by simp [nodesList, List.mem_cons, List.mem_append, hm], he⟩

/-- C3 counterexample: the claim says inserting an already-present name
fails with a duplicate-name error and adds no second node; the code
accepts it, and the tree ends up with two nodes named `"a"` (and one
more node than before, for a total of 3). -/
theorem mls_C3_counterexample :
    countNamed ((((NewTree "g3").Insert "a" [] 0).Insert "a" [] 1).head) "a" = 2
      ∧ sizeE ((((NewTree "g3").Insert "a" [] 0).Insert "a" [] 1).head) = 3 := by
  decide

/-- C3 (amended): `Insert` enforces no duplicate-name precondition.  For
every tree and every name — present already or not — `Insert` succeeds
and adds exactly one more node carrying that name (the structural
effect; only disk write failures can make the Go function return an
error, and they are outside this model). -/
theorem mls_C3_amended (t : Tree) (nm : String) (v : List Nat) (now : Nat) :
    countNamed ((t.Insert nm v now).head) nm = countNamed t.head nm + 1 := by
  unfold Tree.Insert
  cases hh : t.head with
  | nil =>
      simp only [hh]
      simp [countNamed, Element.data]
  | node d l r =>
      simp only [hh]
      have hins := insertToLeaf_countNamed t.rootPath now (Element.node d l r)
        (Element.node
          { name := nm, publicKey := v, leftCount := 0, rightCount := 0,
            filePath := generateFilePath t.rootPath nm, nodeType := "leaf",
            leafIndex := t.getNextLeafIndex, nodeIndex := t.nextNodeIndex,
            lastModified := now, lastChecked := 0 } Element.nil Element.nil)
        (t.nextNodeIndex + 1)
      simp only [name_node] at hins
      rw [countNamed_reassign _ (insertToLeaf_ne_nil _ _ _ _ _ (by intro h; cases h)) nm,
        hins]
      simp [countNamed]

/-- C4: after every `Insert` and every successful `Delete` (any
operation sequence from an empty tree, disk I/O ignored), the node
indices are exactly the breadth-first level-order labeling of the
current tree shape: the breadth-first traversal reads `0,1,…,size-1`,
the indices over all nodes are a permutation of `{0,…,size−1}` (no gaps,
no duplicates), the root carries index 0, and it is the only node with
index 0. -/
theorem mls_C4 (t : Tree) (ht : Reachable t) (hne : t.head ≠ Element.nil) :
    (bfsTraverse [t.head]).map Element.nodeIndex = List.range (sizeE t.head)
      ∧ ((nodesList t.head).map Element.nodeIndex).Perm (List.range (sizeE t.head))
      ∧ t.head.nodeIndex = 0
      ∧ ((nodesList t.head).map Element.nodeIndex).count 0 = 1 := by
  have hc := reachable_canon ht hne
  have hperm := canonicallyIndexed_perm hc
  refine ⟨hc, hperm, canonicallyIndexed_root hne hc, ?_⟩
  rw [hperm.count_eq]
  exact List.count_eq_one_of_mem (List.nodup_range _)
    (List.mem_range.mpr (sizeE_pos_of_ne_nil hne))

theorem mls_C4_witness :
    (bfsTraverse [(((NewTree "g4").Insert "alice" [1] 5).Insert "bob" [2] 6).head]).map
        Element.nodeIndex
      = List.range (sizeE (((NewTree "g4").Insert "alice" [1] 5).Insert "bob" [2] 6).head)
    ∧ ((nodesList (((NewTree "g4").Insert "alice" [1] 5).Insert "bob" [2] 6).head).map
        Element.nodeIndex).Perm
        (List.range (sizeE (((NewTree "g4").Insert "alice" [1] 5).Insert "bob" [2] 6).head))
    ∧ (((NewTree "g4").Insert "alice" [1] 5).Insert "bob" [2] 6).head.nodeIndex = 0
    ∧ ((nodesList (((NewTree "g4").Insert "alice" [1] 5).Insert "bob" [2] 6).head).map
        Element.nodeIndex).count 0 = 1 :=
  mls_C4 _
    (Reachable.ins _ "bob" [2] 6 (Reachable.ins _ "alice" [1] 5 (Reachable.new "g4")))
    (by decide)

/-- C7: the index helpers are pure arithmetic in the node index alone
(no tree access): two elements with equal `nodeIndex` agree on all six
helpers; parent is `(n−1)/2` with sentinel `-1` at the root index 0,
children are `2n+1` and `2n+2`, the sibling is `n+1` for odd `n` and
`n−1` for even `n > 0` with sentinel `-1` at 0, `IsLeftChild` holds
exactly for odd positive indices and `IsRightChild` exactly for even
positive indices. -/
theorem mls_C7 (e e2 : Element) (hidx : e.nodeIndex = e2.nodeIndex) :
    (e.ParentIndex = e2.ParentIndex ∧ e.LeftChildIndex = e2.LeftChildIndex
      ∧ e.RightChildIndex = e2.RightChildIndex ∧ e.SiblingIndex = e2.SiblingIndex
      ∧ e.IsLeftChild = e2.IsLeftChild ∧ e.IsRightChild = e2.IsRightChild)
    ∧ (e.nodeIndex = 0 → e.ParentIndex = -1 ∧ e.SiblingIndex = -1)
    ∧ (e.nodeIndex ≠ 0 → e.ParentIndex = (((e.nodeIndex - 1) / 2 : Nat) : Int))
    ∧ e.LeftChildIndex = 2 * (e.nodeIndex : Int) + 1
    ∧ e.RightChildIndex = 2 * (e.nodeIndex : Int) + 2
    ∧ (Odd e.nodeIndex → e.SiblingIndex = (e.nodeIndex : Int) + 1)
    ∧ (e.nodeIndex ≠ 0 → Even e.nodeIndex → e.SiblingIndex = (e.nodeIndex : Int) - 1)
    ∧ (e.IsLeftChild = true ↔ Odd e.nodeIndex ∧ 0 < e.nodeIndex)
    ∧ (e.IsRightChild = true ↔ Even e.nodeIndex ∧ 0 < e.nodeIndex) := by
  refine ⟨?_, ?_, ?_, ?_, ?_, ?_, ?_, ?_, ?_⟩
  · simp [Element.ParentIndex, Element.LeftChildIndex, Element.RightChildIndex,
      Element.SiblingIndex, Element.IsLeftChild, Element.IsRightChild, hidx]
  · intro h0
    simp [Element.ParentIndex, Element.SiblingIndex, h0]
  · intro h0
    simp [Element.ParentIndex, h0]
  · simp [Element.LeftChildIndex]
  · simp [Element.RightChildIndex]
  · intro hodd
    have h1 : e.nodeIndex % 2 = 1 := Nat.odd_iff.mp hodd
    have h0 : e.nodeIndex ≠ 0 := by
      intro h; rw [h] at h1; simp at h1
    simp [Element.SiblingIndex, h0, h1]
  · intro h0 heven
    have h2 : e.nodeIndex % 2 = 0 := Nat.even_iff.mp heven
    have h1 : 1 ≤ e.nodeIndex := Nat.pos_of_ne_zero h0
    simp [Element.SiblingIndex, h0, h2]
    omega
  · rw [Element.IsLeftChild]
    simp only [Bool.and_eq_true, decide_eq_true_eq]
    rw [Nat.odd_iff]
    tauto
  · rw [Element.IsRightChild]
    simp only [Bool.and_eq_true, decide_eq_true_eq]
    rw [Nat.even_iff]
    tauto

theorem mls_C7_witness :
    (Element.node ⟨"w", [], 0, 0, "", "leaf", 0, 5, 0, 0⟩ Element.nil Element.nil).ParentIndex = 2
      ∧ (Element.node ⟨"w", [], 0, 0, "", "leaf", 0, 5, 0, 0⟩ Element.nil Element.nil).SiblingIndex = 6
      ∧ (Element.node ⟨"w", [], 0, 0, "", "leaf", 0, 5, 0, 0⟩ Element.nil Element.nil).IsLeftChild = true := by
  obtain ⟨-, -, hp, -, -, hs, -, hl, -⟩ :=
    mls_C7 (Element.node ⟨"w", [], 0, 0, "", "leaf", 0, 5, 0, 0⟩ Element.nil Element.nil)
      (Element.node ⟨"w", [], 0, 0, "", "leaf", 0, 5, 0, 0⟩ Element.nil Element.nil) rfl
  refine ⟨?_, ?_, ?_⟩
  · rw [hp (by decide)]; decide
  · rw [hs (by decide)]; decide
  · exact hl.mpr (by decide)

/-- C8: `GetNodesNeedingUpdate` returns exactly the nodes whose
`lastModified` is strictly after `lastChecked`; immediately after
`MarkAllAsChecked` it returns the empty list, and after a subsequent
payload mutation plus `MarkAsModified` on the nodes named `X` (the
caller-side `Find`/`SetValue`/`MarkAsModified` pattern) it returns
exactly the nodes named `X`. -/
theorem mls_C8 (t : Tree) (X : String) (v : List Nat) (now now2 : Nat)
    (hbound : ∀ m ∈ nodesList t.head, m.lastModified ≤ now) (hlt : now < now2) :
    (∀ n, n ∈ t.GetNodesNeedingUpdate
        ↔ n ∈ nodesList t.head ∧ n.lastChecked < n.lastModified)
    ∧ (t.MarkAllAsChecked now).GetNodesNeedingUpdate = []
    ∧ (∀ n, n ∈ getNodesNeedingUpdateE
          (setValueAndMarkModified X v now2 (markAllAsCheckedE now t.head))
        ↔ n ∈ nodesList (setValueAndMarkModified X v now2 (markAllAsCheckedE now t.head))
            ∧ n.name = X) := by
  refine ⟨fun n => mem_getNodesNeedingUpdateE t.head n, ?_, ?_⟩
  · rw [List.eq_nil_iff_forall_not_mem]
    intro n hn
    have hn' : n ∈ getNodesNeedingUpdateE (markAllAsCheckedE now t.head) := hn
    obtain ⟨hm, hcl⟩ := (mem_getNodesNeedingUpdateE _ n).1 hn'
    obtain ⟨hc, m, hmm, he⟩ := markAll_fields now t.head n hm
    have := hbound m hmm
    omega
  · intro n
    rw [mem_getNodesNeedingUpdateE]
    constructor
    · rintro ⟨hm, hcl⟩
      refine ⟨hm, ?_⟩
      by_contra hne
      obtain ⟨hc, -, hle⟩ := modify_markAll_fields X v now now2 t.head hbound n hm
      have := hle hne
      omega
    · rintro ⟨hm, hx⟩
      obtain ⟨hc, heq, -⟩ := modify_markAll_fields X v now now2 t.head hbound n hm
      exact ⟨hm, by rw [hc, heq hx]; exact hlt⟩

theorem mls_C8_witness :
    (∀ n, n ∈ (((NewTree "g8").Insert "a" [3] 1).Insert "b" [4] 2).GetNodesNeedingUpdate
        ↔ n ∈ nodesList (((NewTree "g8").Insert "a" [3] 1).Insert "b" [4] 2).head
            ∧ n.lastChecked < n.lastModified)
    ∧ ((((NewTree "g8").Insert "a" [3] 1).Insert "b" [4] 2).MarkAllAsChecked 5).GetNodesNeedingUpdate = []
    ∧ (∀ n, n ∈ getNodesNeedingUpdateE
          (setValueAndMarkModified "a" [9] 7
            (markAllAsCheckedE 5 (((NewTree "g8").Insert "a" [3] 1).Insert "b" [4] 2).head))
        ↔ n ∈ nodesList (setValueAndMarkModified "a" [9] 7
              (markAllAsCheckedE 5 (((NewTree "g8").Insert "a" [3] 1).Insert "b" [4] 2).head))
            ∧ n.name = "a") :=
  mls_C8 (((NewTree "g8").Insert "a" [3] 1).Insert "b" [4] 2) "a" [9] 5 7
    (by decide) (by decide)

/-- C9: writing a node's record and reloading it through its path
reproduces name, payload, kind, both subtree counts and both timestamps
exactly. -/
theorem mls_C9 (e : Element) (disk0 : Disk) (fuel : Nat)
    (hne : e ≠ Element.nil) (hfp : e.filePath ≠ "") :
    ∃ disk' e', saveToDisk e disk0 = some disk'
      ∧ loadFromDisk (fuel + 1) disk' e.filePath = some e'
      ∧ e'.name = e.name ∧ e'.publicKey = e.publicKey ∧ e'.nodeType = e.nodeType
      ∧ e'.leftCount = e.leftCount ∧ e'.rightCount = e.rightCount
      ∧ e'.lastModified = e.lastModified ∧ e'.lastChecked = e.lastChecked := by
  cases e with
  | nil => exact absurd rfl hne
  | node d l r =>
      have hsave : saveToDisk (Element.node d l r) disk0
          = some (((Element.node d l r).filePath,
              toElementData (Element.node d l r)) :: disk0) := by
        simp only [saveToDisk]
        rw [if_neg hfp]
      have hread : diskRead
          (((Element.node d l r).filePath, toElementData (Element.node d l r)) :: disk0)
          ((Element.node d l r).filePath)
          = some (toElementData (Element.node d l r)) := by
        simp [diskRead]
      refine ⟨((Element.node d l r).filePath, toElementData (Element.node d l r)) :: disk0,
        Element.node
          { name := d.name, publicKey := d.publicKey, leftCount := d.leftCount,
            rightCount := d.rightCount, filePath := d.filePath, nodeType := d.nodeType,
            leafIndex := d.leafIndex, nodeIndex := 0, lastModified := d.lastModified,
            lastChecked := d.lastChecked }
          (if (toElementData (Element.node d l r)).leftChildPath = "" then Element.nil
            else (loadFromDisk fuel (((Element.node d l r).filePath,
              toElementData (Element.node d l r)) :: disk0)
              (toElementData (Element.node d l r)).leftChildPath).getD Element.nil)
          (if (toElementData (Element.node d l r)).rightChildPath = "" then Element.nil
            else (loadFromDisk fuel (((Element.node d l r).filePath,
              toElementData (Element.node d l r)) :: disk0)
              (toElementData (Element.node d l r)).rightChildPath).getD Element.nil),
        hsave, ?_, ?_, ?_, ?_, ?_, ?_, ?_, ?_⟩
      · simp only [loadFromDisk]
        rw [hread]
        simp [toElementData]
      · simp
      · simp
      · simp
      · simp
      · simp
      · simp
      · simp

theorem mls_C9_witness :
    ∃ disk' e',
      saveToDisk (Element.node ⟨"w9", [7], 2, 3, "p/w9.json", "leaf", 1, 4, 11, 6⟩
          Element.nil Element.nil) [] = some disk'
      ∧ loadFromDisk 1 disk'
          (Element.node ⟨"w9", [7], 2, 3, "p/w9.json", "leaf", 1, 4, 11, 6⟩
            Element.nil Element.nil).filePath = some e'
      ∧ e'.name = (Element.node ⟨"w9", [7], 2, 3, "p/w9.json", "leaf", 1, 4, 11, 6⟩
          Element.nil Element.nil).name
      ∧ e'.publicKey = (Element.node ⟨"w9", [7], 2, 3, "p/w9.json", "leaf", 1, 4, 11, 6⟩
          Element.nil Element.nil).publicKey
      ∧ e'.nodeType = (Element.node ⟨"w9", [7], 2, 3, "p/w9.json", "leaf", 1, 4, 11, 6⟩
          Element.nil Element.nil).nodeType
      ∧ e'.leftCount = (Element.node ⟨"w9", [7], 2, 3, "p/w9.json", "leaf", 1, 4, 11, 6⟩
          Element.nil Element.nil).leftCount
      ∧ e'.rightCount = (Element.node ⟨"w9", [7], 2, 3, "p/w9.json", "leaf", 1, 4, 11, 6⟩
          Element.nil Element.nil).rightCount
      ∧ e'.lastModified = (Element.node ⟨"w9", [7], 2, 3, "p/w9.json", "leaf", 1, 4, 11, 6⟩
          Element.nil Element.nil).lastModified
      ∧ e'.lastChecked = (Element.node ⟨"w9", [7], 2, 3, "p/w9.json", "leaf", 1, 4, 11, 6⟩
          Element.nil Element.nil).lastChecked :=
  mls_C9 (Element.node ⟨"w9", [7], 2, 3, "p/w9.json", "leaf", 1, 4, 11, 6⟩
      Element.nil Element.nil) [] 0 (by decide) (by decide)

set_option maxHeartbeats 3200000 in
/-- C10: `GetLeaves` returns exactly the nodes without children,
whatever their recorded `nodeType`; concretely, after inserting two
members and deleting both, the surviving childless node still typed
`"intermediate"` is returned by `GetLeaves`, and a subsequent `Insert`
treats it as the target leaf: it becomes the left child of the new
intermediate node, with the new member on the right. -/
theorem mls_C10 :
    (∀ (t : Tree) (n : Element),
        n ∈ t.GetLeaves ↔ n ∈ nodesList t.head ∧ n.IsLeaf = true)
    ∧ (((((NewTree "gX").Insert "alice" [1] 1).Insert "bob" [2] 2).Delete
          "alice").bind (fun u => u.Delete "bob")).map
        (fun u => ((u.GetLeaves).map Element.name, u.head.nodeType, u.head.IsLeaf,
          (u.Insert "carol" [3] 9).head.name,
          (u.Insert "carol" [3] 9).head.nodeType,
          (u.Insert "carol" [3] 9).head.leftChild.name,
          (u.Insert "carol" [3] 9).head.leftChild.IsLeaf,
          (u.Insert "carol" [3] 9).head.rightChild.name,
          sizeE (u.Insert "carol" [3] 9).head))
      = some (["intermediate_alice_bob"], "intermediate", true,
          "intermediate_intermediate_alice_bob_carol", "intermediate",
          "intermediate_alice_bob", true, "carol", 3) := by
  constructor
  · intro t n
    exact mem_collectLeaves t.head n
  · rfl

theorem countLeaves_stripE (e : Element) : countLeaves (stripE e) = countLeaves e := by
  induction e with
  | nil => rfl
  | node d l r ihl ihr =>
      cases l <;> cases r <;> simp [stripE, countLeaves] at ihl ihr ⊢ <;> omega

theorem fullB_stripE (e : Element) : fullB (stripE e) = fullB e := by
  induction e with
  | nil => rfl
  | node d l r ihl ihr =>
      cases l <;> cases r <;> simp [stripE, fullB] at ihl ihr ⊢ <;>
        simp [ihl, ihr]

theorem gcB_stripE (e : Element) : gcB (stripE e) = gcB e := by
  induction e with
  | nil => rfl
  | node d l r ihl ihr =>
      simp [stripE, gcB, ihl, ihr, countLeaves_stripE]

theorem fullB_reassign (h : Element) (hne : h ≠ Element.nil) :
    fullB (reassignNodeIndices h) = fullB h := by
  have hs := (reassign_spec h hne).1
  calc fullB (reassignNodeIndices h) = fullB (stripE (reassignNodeIndices h)) :=
        (fullB_stripE _).symm
    _ = fullB (stripE h) := by rw [hs]
    _ = fullB h := fullB_stripE h

theorem gcB_reassign (h : Element) (hne : h ≠ Element.nil) :
    gcB (reassignNodeIndices h) = gcB h := by
  have hs := (reassign_spec h hne).1
  calc gcB (reassignNodeIndices h) = gcB (stripE (reassignNodeIndices h)) :=
        (gcB_stripE _).symm
    _ = gcB (stripE h) := by rw [hs]
    _ = gcB h := gcB_stripE h

theorem fullB_children {d : NodeData} {l r : Element}
    (hf : fullB (Element.node d l r) = true) (hnl : ¬(l = Element.nil ∧ r = Element.nil)) :
    (l ≠ Element.nil ∧ r ≠ Element.nil) ∧ fullB l = true ∧ fullB r = true := by
  cases l with
  | nil =>
      cases r with
      | nil => exact absurd ⟨rfl, rfl⟩ hnl
      | node dr a b => simp [fullB] at hf
  | node dl a b =>
      cases r with
      | nil => simp [fullB] at hf
      | node dr c e =>
          simp only [fullB, Bool.and_eq_true] at hf
          refine ⟨⟨?_, ?_⟩, ?_, ?_⟩
          · intro h; cases h
          · intro h; cases h
          · exact hf.1
          · exact hf.2

/-- Inserting into a full tree raises the leaf count of the rebuilt
subtree by exactly one. -/
theorem insertToLeaf_countLeaves (rootPath : String) (now : Nat) :
    ∀ (cur : Element) (nd : NodeData) (ctr : Nat), fullB cur = true →
      countLeaves (insertToLeaf rootPath now cur (.node nd .nil .nil) ctr).1
        = countLeaves cur + 1 := by
  intro cur
  induction cur with
  | nil => intro nd ctr _; simp [insertToLeaf, countLeaves]
  | node d l r ihl ihr =>
      intro nd ctr hf
      rw [insertToLeaf.eq_def]
      by_cases hlr : l = Element.nil ∧ r = Element.nil
      · obtain ⟨h1, h2⟩ := hlr
        subst h1; subst h2
        simp [countLeaves]
      · simp only [if_neg hlr]
        obtain ⟨⟨hln, hrn⟩, hfl, hfr⟩ := fullB_children hf hlr
        by_cases hc : countLeaves l ≤ countLeaves r
        · simp only [if_pos hc]
          cases l with
          | nil => exact absurd rfl hln
          | node dl cl cr =>
              have hres := ihl nd ctr hfl
              have hne := insertToLeaf_ne_nil rootPath now (Element.node dl cl cr)
                (.node nd .nil .nil) ctr (by intro h; cases h)
              cases hrescase : (insertToLeaf rootPath now (Element.node dl cl cr)
                  (.node nd .nil .nil) ctr).1 with
              | nil => exact absurd hrescase hne
              | node dx x y =>
                  cases r with
                  | nil => exact absurd rfl hrn
                  | node dr a b =>
                      rw [hrescase] at hres
                      simp [hrescase, countLeaves]
                      omega
        · simp only [if_neg hc]
          cases r with
          | nil => exact absurd rfl hrn
          | node dr cl cr =>
              have hres := ihr nd ctr hfr
              have hne := insertToLeaf_ne_nil rootPath now (Element.node dr cl cr)
                (.node nd .nil .nil) ctr (by intro h; cases h)
              cases hrescase : (insertToLeaf rootPath now (Element.node dr cl cr)
                  (.node nd .nil .nil) ctr).1 with
              | nil => exact absurd hrescase hne
              | node dx x y =>
                  cases l with
                  | nil => exact absurd rfl hln
                  | node dl a b =>
                      rw [hrescase] at hres
                      simp [hrescase, countLeaves]
                      omega

theorem insertToLeaf_fullB (rootPath : String) (now : Nat) :
    ∀ (cur : Element) (nd : NodeData) (ctr : Nat), fullB cur = true →
      fullB (insertToLeaf rootPath now cur (.node nd .nil .nil) ctr).1 = true := by
  intro cur
  induction cur with
  | nil => intro nd ctr _; simp [insertToLeaf, fullB]
  | node d l r ihl ihr =>
      intro nd ctr hf
      rw [insertToLeaf.eq_def]
      by_cases hlr : l = Element.nil ∧ r = Element.nil
      · obtain ⟨h1, h2⟩ := hlr
        subst h1; subst h2
        simp [fullB]
      · simp only [if_neg hlr]
        obtain ⟨⟨hln, hrn⟩, hfl, hfr⟩ := fullB_children hf hlr
        by_cases hc : countLeaves l ≤ countLeaves r
        · simp only [if_pos hc]
          cases l with
          | nil => exact absurd rfl hln
          | node dl cl cr =>
              have hres := ihl nd ctr hfl
              have hne := insertToLeaf_ne_nil rootPath now (Element.node dl cl cr)
                (.node nd .nil .nil) ctr (by intro h; cases h)
              cases hrescase : (insertToLeaf rootPath now (Element.node dl cl cr)
                  (.node nd .nil .nil) ctr).1 with
              | nil => exact absurd hrescase hne
              | node dx x y =>
                  cases r with
                  | nil => exact absurd rfl hrn
                  | node dr a b =>
                      rw [hrescase] at hres
                      simp [fullB, hrescase, hres, hfr]
        · simp only [if_neg hc]
          cases r with
          | nil => exact absurd rfl hrn
          | node dr cl cr =>
              have hres := ihr nd ctr hfr
              have hne := insertToLeaf_ne_nil rootPath now (Element.node dr cl cr)
                (.node nd .nil .nil) ctr (by intro h; cases h)
              cases hrescase : (insertToLeaf rootPath now (Element.node dr cl cr)
                  (.node nd .nil .nil) ctr).1 with
              | nil => exact absurd hrescase hne
              | node dx x y =>
                  cases l with
                  | nil => exact absurd rfl hln
                  | node dl a b =>
                      rw [hrescase] at hres
                      simp [fullB, hrescase, hres, hfl]

theorem insertToLeaf_gcB (rootPath : String) (now : Nat) :
    ∀ (cur : Element) (nd : NodeData) (ctr : Nat), fullB cur = true →
      gcB cur = true → nd.leftCount = 0 → nd.rightCount = 0 →
      gcB (insertToLeaf rootPath now cur (.node nd .nil .nil) ctr).1 = true := by
  intro cur
  induction cur with
  | nil =>
      intro nd ctr _ _ hl0 hr0
      simp [insertToLeaf, gcB, countLeaves, hl0, hr0]
  | node d l r ihl ihr =>
      intro nd ctr hf hg hl0 hr0
      rw [insertToLeaf.eq_def]
      rw [gcB, Bool.and_eq_true, Bool.and_eq_true, Bool.and_eq_true] at hg
      obtain ⟨⟨⟨hgl, hgr⟩, hgcl⟩, hgcr⟩ := hg
      by_cases hlr : l = Element.nil ∧ r = Element.nil
      · obtain ⟨h1, h2⟩ := hlr
        subst h1; subst h2
        simp only [beq_iff_eq] at hgl hgr
        simp only [countLeaves] at hgl hgr
        simp [gcB, countLeaves, hl0, hr0, hgl, hgr]
      · simp only [if_neg hlr]
        obtain ⟨⟨hln, hrn⟩, hfl, hfr⟩ := fullB_children hf hlr
        by_cases hc : countLeaves l ≤ countLeaves r
        · simp only [if_pos hc]
          cases l with
          | nil => exact absurd rfl hln
          | node dl cl cr =>
              have hcount := insertToLeaf_countLeaves rootPath now
                (Element.node dl cl cr) nd ctr hfl
              have hgres := ihl nd ctr hfl hgcl hl0 hr0
              simp only [gcB, Bool.and_eq_true, beq_iff_eq]
              refine ⟨⟨⟨?_, ?_⟩, hgres⟩, hgcr⟩
              · rw [hcount]
                simp only [beq_iff_eq] at hgl
                rw [hgl]
                push_cast
                ring
              · simpa using hgr
        · simp only [if_neg hc]
          cases r with
          | nil => exact absurd rfl hrn
          | node dr cl cr =>
              have hcount := insertToLeaf_countLeaves rootPath now
                (Element.node dr cl cr) nd ctr hfr
              have hgres := ihr nd ctr hfr hgcr hl0 hr0
              simp only [gcB, Bool.and_eq_true, beq_iff_eq]
              refine ⟨⟨⟨?_, ?_⟩, hgcl⟩, hgres⟩
              · simpa using hgl
              · rw [hcount]
                simp only [beq_iff_eq] at hgr
                rw [hgr]
                push_cast
                ring

/-- Invariant of insert-only histories: full shape and exact cached
leaf counts. -/
theorem insertReachable_full_gc (t : Tree) (ht : InsertReachable t) :
    fullB t.head = true ∧ gcB t.head = true := by
  induction ht with
  | new rootPath => exact ⟨rfl, rfl⟩
  | ins t name value now _ ih =>
      obtain ⟨hf, hg⟩ := ih
      unfold Tree.Insert
      cases hh : t.head with
      | nil => simp [fullB, gcB, countLeaves, Element.data]
      | node d l r =>
          rw [hh] at hf hg
          simp only []
          have hne := insertToLeaf_ne_nil t.rootPath now (Element.node d l r)
            (Element.node
              { name := name, publicKey := value, leftCount := 0, rightCount := 0,
                filePath := generateFilePath t.rootPath name, nodeType := "leaf",
                leafIndex := t.getNextLeafIndex, nodeIndex := t.nextNodeIndex,
                lastModified := now, lastChecked := 0 } Element.nil Element.nil)
            (t.nextNodeIndex + 1) (by intro h; cases h)
          rw [fullB_reassign _ hne, gcB_reassign _ hne]
          exact ⟨insertToLeaf_fullB _ _ _ _ _ hf,
            insertToLeaf_gcB _ _ _ _ _ hf hg rfl rfl⟩

theorem gcB_nodes {h : Element} (hg : gcB h = true) :
    ∀ n ∈ nodesList h, n.leftCount = (countLeaves n.leftChild : Int)
      ∧ n.rightCount = (countLeaves n.rightChild : Int) := by
  induction h with
  | nil => intro n hn; simp [nodesList] at hn
  | node d l r ihl ihr =>
      rw [gcB, Bool.and_eq_true, Bool.and_eq_true, Bool.and_eq_true] at hg
      obtain ⟨⟨⟨hgl, hgr⟩, hgcl⟩, hgcr⟩ := hg
      intro n hn
      simp only [nodesList, List.mem_cons, List.mem_append] at hn
      rcases hn with hn | hn | hn
      · subst hn
        simp only [beq_iff_eq] at hgl hgr
        simp [hgl, hgr]
      · exact ihl hgcl n hn
      · exact ihr hgcr n hn

/-- C2 counterexample: after the insert-only history
`Insert a; Insert b; Insert c`, the root's `leftCount` is 2 while 3
nodes (one intermediate and two leaves) are reachable through its left
child — the cached counts are not subtree node counts. -/
theorem mls_C2_counterexample :
    ((((NewTree "g2").Insert "a" [] 1).Insert "b" [] 2).Insert "c" [] 3).head.leftCount = 2
      ∧ sizeE ((((NewTree "g2").Insert "a" [] 1).Insert "b" [] 2).Insert "c" [] 3).head.leftChild = 3
      ∧ ((((NewTree "g2").Insert "a" [] 1).Insert "b" [] 2).Insert "c" [] 3).head.leftCount
          ≠ (sizeE ((((NewTree "g2").Insert "a" [] 1).Insert "b" [] 2).Insert "c" [] 3).head.leftChild : Int) := by
  refine ⟨by decide, by decide, by decide⟩

/-- C2 (amended): over insert-only histories, every node's `leftCount`
and `rightCount` equal the number of leaves (childless nodes) reachable
through `leftChild` and `rightChild` respectively — not the number of
nodes.  (Delete breaks even this: it decrements path counts by one per
removal while orphaned childless intermediates still count as leaves.) -/
theorem mls_C2_amended (t : Tree) (ht : InsertReachable t) :
    ∀ n ∈ nodesList t.head,
      n.leftCount = (countLeaves n.leftChild : Int)
        ∧ n.rightCount = (countLeaves n.rightChild : Int) :=
  gcB_nodes (insertReachable_full_gc t ht).2

theorem mls_C2_witness :
    (((NewTree "gw2").Insert "a" [] 1).Insert "b" [] 2).head
        ∈ nodesList (((NewTree "gw2").Insert "a" [] 1).Insert "b" [] 2).head
    ∧ ((((NewTree "gw2").Insert "a" [] 1).Insert "b" [] 2).head.leftCount
          = (countLeaves (((NewTree "gw2").Insert "a" [] 1).Insert
              "b" [] 2).head.leftChild : Int)
        ∧ (((NewTree "gw2").Insert "a" [] 1).Insert "b" [] 2).head.rightCount
          = (countLeaves (((NewTree "gw2").Insert "a" [] 1).Insert
              "b" [] 2).head.rightChild : Int)) :=
  ⟨by decide,
    mls_C2_amended (((NewTree "gw2").Insert "a" [] 1).Insert "b" [] 2)
      (InsertReachable.ins _ "b" [] 2 (InsertReachable.ins _ "a" [] 1
        (InsertReachable.new "gw2")))
      (((NewTree "gw2").Insert "a" [] 1).Insert "b" [] 2).head (by decide)⟩

/-- C5 counterexample: on the reachable tree obtained by
`Insert alice; Insert bob; Delete bob` (whose root keeps only a left
child), inserting `carol` does not stop at a leaf and does not create
an intermediate node pairing `carol` with an existing leaf: exactly one
node is added (size 2 to 3), `carol` is attached directly into the
root's empty right slot, and no `intermediate_*_carol` node exists. -/
theorem mls_C5_counterexample :
    ((((NewTree "g5").Insert "alice" [1] 1).Insert "bob" [2] 2).Delete "bob").map
      (fun u => (sizeE u.head, sizeE (u.Insert "carol" [3] 9).head,
        (u.Insert "carol" [3] 9).head.name,
        (u.Insert "carol" [3] 9).head.rightChild.name,
        (u.Insert "carol" [3] 9).head.rightChild.IsLeaf,
        countNamed (u.Insert "carol" [3] 9).head "intermediate_alice_carol",
        countNamed (u.Insert "carol" [3] 9).head "intermediate_carol_alice"))
      = some (2, 3, "intermediate_alice_bob", "carol", true, 0, 0) := by
  rfl

/-- C5 (amended): on trees in which every node has zero or two children
— which is every tree produced by insert-only histories — the
implementation's insertion walk coincides exactly with the
specification's walk: descend towards fewer leaves with ties to the
left, stop at a leaf, and replace it by a fresh intermediate node with
the existing leaf on the left, the new leaf on the right and an empty
payload.  (On a tree with a one-child node, reachable after deletions,
the implementation instead attaches the new leaf directly into the
empty child slot.) -/
theorem mls_C5_amended (rootPath : String) (now : Nat) (cur newNode : Element)
    (ctr : Nat) (hf : fullB cur = true) :
    specInsertWalk rootPath now cur newNode ctr
      = insertToLeaf rootPath now cur newNode ctr := by
  induction cur with
  | nil => rfl
  | node d l r ihl ihr =>
      rw [insertToLeaf.eq_def, specInsertWalk.eq_def]
      by_cases hlr : l = Element.nil ∧ r = Element.nil
      · obtain ⟨h1, h2⟩ := hlr
        subst h1; subst h2
        simp
      · obtain ⟨⟨hln, hrn⟩, hfl, hfr⟩ := fullB_children hf hlr
        have hleaf : (Element.node d l r).IsLeaf = false := by
          cases l with
          | nil => exact absurd rfl hln
          | node dl a b => exact isLeaf_node_left d dl a b r
        by_cases hc : countLeaves l ≤ countLeaves r
        · cases l with
          | nil => exact absurd rfl hln
          | node dl a b => simp [hlr, hleaf, hc, ihl hfl]
        · cases r with
          | nil => exact absurd rfl hrn
          | node dr a b => simp [hlr, hleaf, hc, ihr hfr]

theorem mls_C5_witness :
    specInsertWalk "gw5" 9
      (Element.node ⟨"i", [], 1, 1, "gw5/i.json", "intermediate", 0, 0, 1, 0⟩
        (Element.node ⟨"a", [1], 0, 0, "gw5/a.json", "leaf", 0, 1, 1, 0⟩ Element.nil Element.nil)
        (Element.node ⟨"b", [2], 0, 0, "gw5/b.json", "leaf", 1, 2, 1, 0⟩ Element.nil Element.nil))
      (Element.node ⟨"c", [3], 0, 0, "gw5/c.json", "leaf", 2, 5, 9, 0⟩ Element.nil Element.nil) 6
      = insertToLeaf "gw5" 9
        (Element.node ⟨"i", [], 1, 1, "gw5/i.json", "intermediate", 0, 0, 1, 0⟩
          (Element.node ⟨"a", [1], 0, 0, "gw5/a.json", "leaf", 0, 1, 1, 0⟩ Element.nil Element.nil)
          (Element.node ⟨"b", [2], 0, 0, "gw5/b.json", "leaf", 1, 2, 1, 0⟩ Element.nil Element.nil))
        (Element.node ⟨"c", [3], 0, 0, "gw5/c.json", "leaf", 2, 5, 9, 0⟩ Element.nil Element.nil) 6 :=
  mls_C5_amended "gw5" 9 _ _ 6 (by decide)

theorem isLeaf_shape {e : Element} (h : e.IsLeaf = true) :
    ∃ d, e = Element.node d Element.nil Element.nil := by
  cases e with
  | nil => simp [Element.IsLeaf] at h
  | node d l r =>
      cases l with
      | nil =>
          cases r with
          | nil => exact ⟨d, rfl⟩
          | node dr a b => rw [isLeaf_node_right] at h; cases h
      | node dl a b => rw [isLeaf_node_left] at h; cases h

theorem leafNamesL_eq_map (e : Element) :
    leafNamesL e = (collectLeaves e).map Element.name := by
  induction e with
  | nil => rfl
  | node d l r ihl ihr =>
      by_cases hlr : l = Element.nil ∧ r = Element.nil
      · obtain ⟨h1, h2⟩ := hlr
        subst h1; subst h2
        simp [leafNamesL, collectLeaves]
      · have h1 : leafNamesL (Element.node d l r) = leafNamesL l ++ leafNamesL r := by
          cases l with
          | nil =>
              cases r with
              | nil => exact absurd ⟨rfl, rfl⟩ hlr
              | node dr a b => simp [leafNamesL]
          | node dl a b => cases r <;> simp [leafNamesL]
        have h2 : collectLeaves (Element.node d l r)
            = collectLeaves l ++ collectLeaves r := by
          cases l with
          | nil =>
              cases r with
              | nil => exact absurd ⟨rfl, rfl⟩ hlr
              | node dr a b => simp [collectLeaves]
          | node dl a b => cases r <;> simp [collectLeaves]
        rw [h1, h2, List.map_append, ihl, ihr]

theorem mem_leafNamesL (e : Element) (nm : String) :
    nm ∈ leafNamesL e ↔ ∃ n, n ∈ nodesList e ∧ n.IsLeaf = true ∧ n.name = nm := by
  rw [leafNamesL_eq_map, List.mem_map]
  constructor
  · rintro ⟨n, hn, he⟩
    obtain ⟨hm, hl⟩ := (mem_collectLeaves e n).1 hn
    exact ⟨n, hm, hl, he⟩
  · rintro ⟨n, hm, hl, he⟩
    exact ⟨n, (mem_collectLeaves e n).2 ⟨hm, hl⟩, he⟩

theorem leafNamesL_stripE (e : Element) : leafNamesL (stripE e) = leafNamesL e := by
  induction e with
  | nil => rfl
  | node d l r ihl ihr =>
      cases l <;> cases r <;> simp [stripE, leafNamesL] at ihl ihr ⊢ <;>
        simp [ihl, ihr]

/-- `renameIntermediateNodes` rebuilds each node in place: some data
over the renamed children. -/
theorem rename_shape (rootPath : String) (d : NodeData) (l r : Element) :
    ∃ d', renameIntermediateNodes rootPath (Element.node d l r)
      = Element.node d' (renameIntermediateNodes rootPath l)
          (renameIntermediateNodes rootPath r) := by
  simp only [renameIntermediateNodes]
  by_cases ht : d.nodeType = "intermediate"
  · simp only [if_pos ht]
    cases hcl : collectLeafNames (renameIntermediateNodes rootPath l) with
    | nil => exact ⟨_, rfl⟩
    | cons a as =>
        cases hcr : collectLeafNames (renameIntermediateNodes rootPath r) with
        | nil => exact ⟨_, rfl⟩
        | cons b bs => exact ⟨_, rfl⟩
  · simp only [if_neg ht]
    exact ⟨_, rfl⟩

theorem rename_nil_iff (rootPath : String) (e : Element) :
    renameIntermediateNodes rootPath e = Element.nil ↔ e = Element.nil := by
  cases e with
  | nil => simp [renameIntermediateNodes]
  | node d l r =>
      obtain ⟨d', hd'⟩ := rename_shape rootPath d l r
      rw [hd']
      constructor
      · intro h; cases h
      · intro h; cases h

theorem rename_childless (rootPath : String) (d : NodeData) :
    renameIntermediateNodes rootPath (Element.node d Element.nil Element.nil)
      = Element.node d Element.nil Element.nil := by
  rw [renameIntermediateNodes]
  by_cases ht : d.nodeType = "intermediate"
  · rw [if_pos ht]
    rfl
  · rw [if_neg ht]
    rfl

theorem leafNamesL_rename (rootPath : String) (e : Element) :
    leafNamesL (renameIntermediateNodes rootPath e) = leafNamesL e := by
  induction e with
  | nil => rfl
  | node d l r ihl ihr =>
      by_cases hlr : l = Element.nil ∧ r = Element.nil
      · obtain ⟨h1, h2⟩ := hlr
        subst h1; subst h2
        rw [rename_childless]
      · obtain ⟨d', hd'⟩ := rename_shape rootPath d l r
        rw [hd']
        have hle : leafNamesL (Element.node d l r) = leafNamesL l ++ leafNamesL r := by
          cases l with
          | nil =>
              cases r with
              | nil => exact absurd ⟨rfl, rfl⟩ hlr
              | node dr a b => simp [leafNamesL]
          | node dl a b => cases r <;> simp [leafNamesL]
        have hlr' : ¬(renameIntermediateNodes rootPath l = Element.nil
            ∧ renameIntermediateNodes rootPath r = Element.nil) := by
          rw [rename_nil_iff, rename_nil_iff]
          exact hlr
        have hle' : leafNamesL (Element.node d' (renameIntermediateNodes rootPath l)
              (renameIntermediateNodes rootPath r))
            = leafNamesL (renameIntermediateNodes rootPath l)
              ++ leafNamesL (renameIntermediateNodes rootPath r) := by
          cases hL : renameIntermediateNodes rootPath l with
          | nil =>
              cases hR : renameIntermediateNodes rootPath r with
              | nil => exact absurd ⟨hL, hR⟩ hlr'
              | node dr a b => simp [leafNamesL]
          | node dl a b => cases hR : renameIntermediateNodes rootPath r <;> simp [leafNamesL]
        rw [hle', hle, ihl, ihr]

theorem sizeE_rename (rootPath : String) (e : Element) :
    sizeE (renameIntermediateNodes rootPath e) = sizeE e := by
  induction e with
  | nil => rfl
  | node d l r ihl ihr =>
      obtain ⟨d', hd'⟩ := rename_shape rootPath d l r
      rw [hd']
      simp [sizeE, ihl, ihr]

theorem deleteNode_not_found (x : String) :
    ∀ e : Element, (deleteNode e x).2 = false → (deleteNode e x).1 = e := by
  intro e
  induction e with
  | nil => intro _; rfl
  | node d l r ihl ihr =>
      intro hff
      rw [deleteNode.eq_def] at hff ⊢
      by_cases hname : d.name = x
      · exfalso
        cases l <;> cases r <;> simp [hname] at hff
      · cases l with
        | nil =>
            cases r with
            | nil => simp [hname]
            | node dr rl rr =>
                cases hr2 : (deleteNode (Element.node dr rl rr) x).2 with
                | true => simp [hname, hr2] at hff
                | false => simp [hname, hr2, ihr hr2]
        | node dl ll lr =>
            cases hl2 : (deleteNode (Element.node dl ll lr) x).2 with
            | true => simp [hname, hl2] at hff
            | false =>
                cases r with
                | nil => simp [hname, hl2, ihl hl2]
                | node dr rl rr =>
                    cases hr2 : (deleteNode (Element.node dr rl rr) x).2 with
                    | true => simp [hname, hl2, hr2] at hff
                    | false => simp [hname, hl2, hr2, ihl hl2, ihr hr2]

theorem deleteNode_found_iff (x : String) :
    ∀ e : Element, (deleteNode e x).2 = true ↔ ∃ n, n ∈ nodesList e ∧ n.name = x := by
  intro e
  induction e with
  | nil => simp [deleteNode, nodesList]
  | node d l r ihl ihr =>
      by_cases hname : d.name = x
      · have hval : (deleteNode (Element.node d l r) x).2 = true := by
          rw [deleteNode.eq_def]
          cases l <;> cases r <;> simp [hname]
        refine ⟨fun _ => ⟨Element.node d l r, by simp [nodesList], by simpa using hname⟩,
          fun _ => hval⟩
      · have hnotself : ¬(Element.node d l r).name = x := by simpa using hname
        cases l with
        | nil =>
            cases r with
            | nil =>
                have hval : (deleteNode (Element.node d Element.nil Element.nil) x).2 = false := by
                  rw [deleteNode.eq_def]
                  simp [hname]
                constructor
                · intro h; rw [hval] at h; cases h
                · rintro ⟨n, hn, hx⟩
                  rw [nodesList_node] at hn
                  rcases List.mem_cons.1 hn with hn | hn
                  · subst hn; exact absurd hx hnotself
                  · rcases List.mem_append.1 hn with hn | hn <;>
                      exact absurd hn (List.not_mem_nil n)
            | node dr rl rr =>
                cases hr2 : (deleteNode (Element.node dr rl rr) x).2 with
                | true =>
                    have hval : (deleteNode (Element.node d Element.nil
                        (Element.node dr rl rr)) x).2 = true := by
                      rw [deleteNode.eq_def]
                      simp [hname, hr2]
                    refine ⟨fun _ => ?_, fun _ => hval⟩
                    obtain ⟨n, hn, hx⟩ := ihr.1 hr2
                    exact ⟨n, by
                      rw [nodesList_node]
                      exact List.mem_cons_of_mem _ (List.mem_append_right _ hn), hx⟩
                | false =>
                    have hval : (deleteNode (Element.node d Element.nil
                        (Element.node dr rl rr)) x).2 = false := by
                      rw [deleteNode.eq_def]
                      simp [hname, hr2]
                    constructor
                    · intro h; rw [hval] at h; cases h
                    · rintro ⟨n, hn, hx⟩
                      exfalso
                      rw [nodesList_node] at hn
                      rcases List.mem_cons.1 hn with hn | hn
                      · subst hn; exact absurd hx hnotself
                      · rcases List.mem_append.1 hn with hn | hn
                        · exact absurd hn (List.not_mem_nil n)
                        · have := ihr.2 ⟨n, hn, hx⟩
                          rw [hr2] at this
                          cases this
        | node dl ll lr =>
            cases hl2 : (deleteNode (Element.node dl ll lr) x).2 with
            | true =>
                have hval : (deleteNode (Element.node d (Element.node dl ll lr) r) x).2
                    = true := by
                  rw [deleteNode.eq_def]
                  simp [hname, hl2]
                refine ⟨fun _ => ?_, fun _ => hval⟩
                obtain ⟨n, hn, hx⟩ := ihl.1 hl2
                exact ⟨n, by
                  rw [nodesList_node]
                  exact List.mem_cons_of_mem _ (List.mem_append_left _ hn), hx⟩
            | false =>
                cases r with
                | nil =>
                    have hval : (deleteNode (Element.node d (Element.node dl ll lr)
                        Element.nil) x).2 = false := by
                      rw [deleteNode.eq_def]
                      simp [hname, hl2]
                    constructor
                    · intro h; rw [hval] at h; cases h
                    · rintro ⟨n, hn, hx⟩
                      exfalso
                      rw [nodesList_node] at hn
                      rcases List.mem_cons.1 hn with hn | hn
                      · subst hn; exact absurd hx hnotself
                      · rcases List.mem_append.1 hn with hn | hn
                        · have := ihl.2 ⟨n, hn, hx⟩
                          rw [hl2] at this
                          cases this
                        · exact absurd hn (List.not_mem_nil n)
                | node dr rl rr =>
                    cases hr2 : (deleteNode (Element.node dr rl rr) x).2 with
                    | true =>
                        have hval : (deleteNode (Element.node d (Element.node dl ll lr)
                            (Element.node dr rl rr)) x).2 = true := by
                          rw [deleteNode.eq_def]
                          simp [hname, hl2, hr2]
                        refine ⟨fun _ => ?_, fun _ => hval⟩
                        obtain ⟨n, hn, hx⟩ := ihr.1 hr2
                        exact ⟨n, by
                          rw [nodesList_node]
                          exact List.mem_cons_of_mem _ (List.mem_append_right _ hn), hx⟩
                    | false =>
                        have hval : (deleteNode (Element.node d (Element.node dl ll lr)
                            (Element.node dr rl rr)) x).2 = false := by
                          rw [deleteNode.eq_def]
                          simp [hname, hl2, hr2]
                        constructor
                        · intro h; rw [hval] at h; cases h
                        · rintro ⟨n, hn, hx⟩
                          exfalso
                          rw [nodesList_node] at hn
                          rcases List.mem_cons.1 hn with hn | hn
                          · subst hn; exact absurd hx hnotself
                          · rcases List.mem_append.1 hn with hn | hn
                            · have := ihl.2 ⟨n, hn, hx⟩
                              rw [hl2] at this
                              cases this
                            · have := ihr.2 ⟨n, hn, hx⟩
                              rw [hr2] at this
                              cases this

theorem deleteNode_self_leaf (d : NodeData) (x : String) (hname : d.name = x) :
    deleteNode (Element.node d Element.nil Element.nil) x = (Element.nil, true) := by
  rw [deleteNode.eq_def]
  simp [hname]

theorem deleteNode_go_right (d dr : NodeData) (rl rr : Element) (x : String)
    (hname : ¬d.name = x) (hr2 : (deleteNode (Element.node dr rl rr) x).2 = true) :
    deleteNode (Element.node d Element.nil (Element.node dr rl rr)) x
      = (Element.node { d with rightCount := d.rightCount - 1 } Element.nil
          (deleteNode (Element.node dr rl rr) x).1, true) := by
  rw [deleteNode.eq_def]
  simp [hname, hr2]

theorem deleteNode_go_left (d dl : NodeData) (ll lr r : Element) (x : String)
    (hname : ¬d.name = x) (hl2 : (deleteNode (Element.node dl ll lr) x).2 = true) :
    deleteNode (Element.node d (Element.node dl ll lr) r) x
      = (Element.node { d with leftCount := d.leftCount - 1 }
          (deleteNode (Element.node dl ll lr) x).1 r, true) := by
  rw [deleteNode.eq_def]
  simp [hname, hl2]

theorem deleteNode_go_leftright (d dl dr : NodeData) (ll lr rl rr : Element) (x : String)
    (hname : ¬d.name = x) (hl2 : (deleteNode (Element.node dl ll lr) x).2 = false)
    (hr2 : (deleteNode (Element.node dr rl rr) x).2 = true) :
    deleteNode (Element.node d (Element.node dl ll lr) (Element.node dr rl rr)) x
      = (Element.node { d with rightCount := d.rightCount - 1 }
          (deleteNode (Element.node dl ll lr) x).1
          (deleteNode (Element.node dr rl rr) x).1, true) := by
  rw [deleteNode.eq_def]
  simp [hname, hl2, hr2]

theorem attachRightmost_ne_nil (sub : Element) (rc : Int) (d : NodeData) (l r : Element) :
    attachRightmost sub rc (Element.node d l r) ≠ Element.nil := by
  cases r <;> simp [attachRightmost]

/-- The only way `deleteNode` can leave `nil` behind is to have removed
a childless root that carried the target name. -/
theorem deleteNode_nil_result (x : String) (e : Element)
    (hf : (deleteNode e x).2 = true) (h0 : (deleteNode e x).1 = Element.nil) :
    ∃ d, e = Element.node d Element.nil Element.nil ∧ d.name = x := by
  cases e with
  | nil => simp [deleteNode] at hf
  | node d l r =>
      by_cases hname : d.name = x
      · cases l with
        | nil =>
            cases r with
            | nil => exact ⟨d, rfl, hname⟩
            | node dr rl rr =>
                rw [deleteNode.eq_def] at h0
                simp [hname] at h0
        | node dl ll lr =>
            cases r with
            | nil =>
                rw [deleteNode.eq_def] at h0
                simp [hname] at h0
            | node dr rl rr =>
                exfalso
                rw [deleteNode.eq_def] at h0
                simp only [hname, if_pos] at h0
                cases hL : attachRightmost (Element.node dr rl rr)
                    ((Element.node dr rl rr).leftCount
                      + (Element.node dr rl rr).rightCount + 1)
                    (Element.node dl ll lr) with
                | nil => exact attachRightmost_ne_nil _ _ _ _ _ hL
                | node a b c =>
                    rw [hL] at h0
                    simp [setTopRightCount] at h0
      · cases l with
        | nil =>
            cases r with
            | nil =>
                rw [deleteNode.eq_def] at hf
                simp [hname] at hf
            | node dr rl rr =>
                cases hr2 : (deleteNode (Element.node dr rl rr) x).2 with
                | false =>
                    rw [deleteNode.eq_def] at hf
                    simp [hname, hr2] at hf
                | true =>
                    rw [deleteNode_go_right d dr rl rr x hname hr2] at h0
                    cases h0
        | node dl ll lr =>
            cases hl2 : (deleteNode (Element.node dl ll lr) x).2 with
            | true =>
                rw [deleteNode_go_left d dl ll lr r x hname hl2] at h0
                cases h0
            | false =>
                cases r with
                | nil =>
                    rw [deleteNode.eq_def] at hf
                    simp [hname, hl2] at hf
                | node dr rl rr =>
                    cases hr2 : (deleteNode (Element.node dr rl rr) x).2 with
                    | false =>
                        rw [deleteNode.eq_def] at hf
                        simp [hname, hl2, hr2] at hf
                    | true =>
                        rw [deleteNode_go_leftright d dl dr ll lr rl rr x hname hl2 hr2] at h0
                        cases h0

theorem namedAreLeaves_sub {x : String} {d : NodeData} {l r : Element}
    (h : NamedAreLeaves x (Element.node d l r)) :
    NamedAreLeaves x l ∧ NamedAreLeaves x r := by
  constructor <;> intro n hn hx
  · exact h n (by
      rw [nodesList_node]
      exact List.mem_cons_of_mem _ (List.mem_append_left _ hn)) hx
  · exact h n (by
      rw [nodesList_node]
      exact List.mem_cons_of_mem _ (List.mem_append_right _ hn)) hx

theorem leafNamesL_split (d : NodeData) {l r : Element}
    (h : ¬(l = Element.nil ∧ r = Element.nil)) :
    leafNamesL (Element.node d l r) = leafNamesL l ++ leafNamesL r := by
  cases l with
  | nil =>
      cases r with
      | nil => exact absurd ⟨rfl, rfl⟩ h
      | node dr a b => simp [leafNamesL]
  | node dl a b => cases r <;> simp [leafNamesL]

/-- When every node carrying the deleted name is childless, a successful
`deleteNode` removes exactly one node. -/
theorem deleteNode_size (x : String) :
    ∀ e : Element, NamedAreLeaves x e → (deleteNode e x).2 = true →
      sizeE (deleteNode e x).1 + 1 = sizeE e := by
  intro e
  induction e with
  | nil => intro _ hf; simp [deleteNode] at hf
  | node d l r ihl ihr =>
      intro hx hf
      by_cases hname : d.name = x
      · have hsl : (Element.node d l r).IsLeaf = true := by
          refine hx _ ?_ (by simpa using hname)
          rw [nodesList_node]
          exact List.mem_cons_self _ _
        obtain ⟨d0, he⟩ := isLeaf_shape hsl
        injection he with h1 h2 h3
        subst h2; subst h3
        rw [deleteNode_self_leaf d x hname]
        simp [sizeE]
      · cases l with
        | nil =>
            cases r with
            | nil =>
                exfalso
                rw [deleteNode.eq_def] at hf
                simp [hname] at hf
            | node dr rl rr =>
                cases hr2 : (deleteNode (Element.node dr rl rr) x).2 with
                | false =>
                    exfalso
                    rw [deleteNode.eq_def] at hf
                    simp [hname, hr2] at hf
                | true =>
                    rw [deleteNode_go_right d dr rl rr x hname hr2]
                    have hrec := ihr (namedAreLeaves_sub hx).2 hr2
                    simp only [sizeE] at hrec ⊢
                    omega
        | node dl ll lr =>
            cases hl2 : (deleteNode (Element.node dl ll lr) x).2 with
            | true =>
                rw [deleteNode_go_left d dl ll lr r x hname hl2]
                have hrec := ihl (namedAreLeaves_sub hx).1 hl2
                simp only [sizeE] at hrec ⊢
                omega
            | false =>
                cases r with
                | nil =>
                    exfalso
                    rw [deleteNode.eq_def] at hf
                    simp [hname, hl2] at hf
                | node dr rl rr =>
                    cases hr2 : (deleteNode (Element.node dr rl rr) x).2 with
                    | false =>
                        exfalso
                        rw [deleteNode.eq_def] at hf
                        simp [hname, hl2, hr2] at hf
                    | true =>
                        rw [deleteNode_go_leftright d dl dr ll lr rl rr x hname hl2 hr2]
                        have h1 := deleteNode_not_found x (Element.node dl ll lr) hl2
                        have hrec := ihr (namedAreLeaves_sub hx).2 hr2
                        simp only [sizeE, h1] at hrec ⊢
                        omega

/-- When every node carrying the deleted name is childless, a successful
`deleteNode` keeps every other leaf name present. -/
theorem deleteNode_leafNames (x : String) :
    ∀ e : Element, NamedAreLeaves x e → (deleteNode e x).2 = true →
      ∀ nm, ¬nm = x → nm ∈ leafNamesL e → nm ∈ leafNamesL (deleteNode e x).1 := by
  intro e
  induction e with
  | nil => intro _ hf; simp [deleteNode] at hf
  | node d l r ihl ihr =>
      intro hx hf nm hnm hm
      by_cases hname : d.name = x
      · exfalso
        have hsl : (Element.node d l r).IsLeaf = true := by
          refine hx _ ?_ (by simpa using hname)
          rw [nodesList_node]
          exact List.mem_cons_self _ _
        obtain ⟨d0, he⟩ := isLeaf_shape hsl
        injection he with h1 h2 h3
        subst h2; subst h3
        simp only [leafNamesL, List.mem_singleton] at hm
        exact hnm (hm.trans hname)
      · cases l with
        | nil =>
            cases r with
            | nil =>
                exfalso
                rw [deleteNode.eq_def] at hf
                simp [hname] at hf
            | node dr rl rr =>
                cases hr2 : (deleteNode (Element.node dr rl rr) x).2 with
                | false =>
                    exfalso
                    rw [deleteNode.eq_def] at hf
                    simp [hname, hr2] at hf
                | true =>
                    rw [deleteNode_go_right d dr rl rr x hname hr2]
                    rw [leafNamesL_split d (by simp)] at hm
                    simp only [leafNamesL, List.nil_append] at hm
                    cases hR : (deleteNode (Element.node dr rl rr) x).1 with
                    | nil =>
                        exfalso
                        obtain ⟨dx, hex, hnx⟩ := deleteNode_nil_result x _ hr2 hR
                        rw [hex] at hm
                        simp only [leafNamesL, List.mem_singleton] at hm
                        exact hnm (hm.trans hnx)
                    | node a b c =>
                        have hmem := ihr (namedAreLeaves_sub hx).2 hr2 nm hnm hm
                        rw [hR] at hmem
                        rw [leafNamesL_split _ (by simp)]
                        simpa [leafNamesL] using hmem
        | node dl ll lr =>
            cases hl2 : (deleteNode (Element.node dl ll lr) x).2 with
            | true =>
                rw [deleteNode_go_left d dl ll lr r x hname hl2]
                rw [leafNamesL_split d (by simp)] at hm
                rcases List.mem_append.1 hm with hm | hm
                · have hmem := ihl (namedAreLeaves_sub hx).1 hl2 nm hnm hm
                  cases hL : (deleteNode (Element.node dl ll lr) x).1 with
                  | nil =>
                      exfalso
                      rw [hL] at hmem
                      simp [leafNamesL] at hmem
                  | node a b c =>
                      rw [hL] at hmem
                      rw [leafNamesL_split _ (by simp)]
                      exact List.mem_append_left _ hmem
                · cases hL : (deleteNode (Element.node dl ll lr) x).1 with
                  | nil =>
                      cases r with
                      | nil => simp [leafNamesL] at hm
                      | node dr rl rr =>
                          rw [leafNamesL_split _ (by simp)]
                          simpa [leafNamesL] using hm
                  | node a b c =>
                      rw [leafNamesL_split _ (by simp)]
                      exact List.mem_append_right _ hm
            | false =>
                cases r with
                | nil =>
                    exfalso
                    rw [deleteNode.eq_def] at hf
                    simp [hname, hl2] at hf
                | node dr rl rr =>
                    cases hr2 : (deleteNode (Element.node dr rl rr) x).2 with
                    | false =>
                        exfalso
                        rw [deleteNode.eq_def] at hf
                        simp [hname, hl2, hr2] at hf
                    | true =>
                        rw [deleteNode_go_leftright d dl dr ll lr rl rr x hname hl2 hr2]
                        have h1 := deleteNode_not_found x (Element.node dl ll lr) hl2
                        rw [h1, leafNamesL_split _ (by simp)]
                        rw [leafNamesL_split d (by simp)] at hm
                        rcases List.mem_append.1 hm with hm | hm
                        · exact List.mem_append_left _ hm
                        · cases hR : (deleteNode (Element.node dr rl rr) x).1 with
                          | nil =>
                              exfalso
                              obtain ⟨dx, hex, hnx⟩ := deleteNode_nil_result x _ hr2 hR
                              rw [hex] at hm
                              simp only [leafNamesL, List.mem_singleton] at hm
                              exact hnm (hm.trans hnx)
                          | node a b c =>
                              have hmem := ihr (namedAreLeaves_sub hx).2 hr2 nm hnm hm
                              rw [hR] at hmem
                              exact List.mem_append_right _ hmem

/-- A node's node list is itself followed by everything reachable from
its enqueued children. -/
theorem nodesList_eq_self_enqueue (d : NodeData) (l r : Element) :
    nodesList (Element.node d l r)
      = Element.node d l r :: nodesForest (enqueueChildren (Element.node d l r)) := by
  rw [nodesList_node, nodesForest_enqueueChildren]

/-- The breadth-first search of `Tree.Find` reaches every name present
in the queue, given enough fuel. -/
theorem findAux_presence (nm : String) :
    ∀ f q, NoNil q → forestSize q ≤ f →
      (∃ n, n ∈ nodesForest q ∧ n.name = nm) →
      ∃ m, findAux f q nm = some m ∧ m.name = nm := by
  intro f
  induction f with
  | zero =>
      rintro q hnn hfs ⟨n, hn, _⟩
      cases q with
      | nil => exact absurd hn (List.not_mem_nil n)
      | cons t ts =>
          exfalso
          have ht := (noNil_of_cons hnn).1
          have := sizeE_pos_of_ne_nil ht
          simp only [forestSize] at hfs
          omega
  | succ f ih =>
      rintro q hnn hfs ⟨n, hn, hname⟩
      cases q with
      | nil => exact absurd hn (List.not_mem_nil n)
      | cons t rest =>
          by_cases hteq : t.name = nm
          · exact ⟨t, by simp [findAux, hteq], hteq⟩
          · have hne : n ≠ t := by
              intro he
              exact hteq (he ▸ hname)
            obtain ⟨ht, hrest⟩ := noNil_of_cons hnn
            have hnn' : NoNil (rest ++ enqueueChildren t) :=
              noNil_append hrest (noNil_enqueueChildren t)
            have hfs' : forestSize (rest ++ enqueueChildren t) ≤ f := by
              cases t with
              | nil => exact absurd rfl ht
              | node d l r =>
                  rw [forestSize_append, forestSize_enqueueChildren]
                  simp only [forestSize, sizeE] at hfs
                  omega
            have hmem : n ∈ nodesForest (rest ++ enqueueChildren t) := by
              rw [nodesForest_append]
              simp only [nodesForest] at hn
              rcases List.mem_append.1 hn with hn | hn
              · cases t with
                | nil => exact absurd rfl ht
                | node d l r =>
                    rw [nodesList_eq_self_enqueue] at hn
                    rcases List.mem_cons.1 hn with hn | hn
                    · exact absurd hn hne
                    · exact List.mem_append_right _ hn
              · exact List.mem_append_left _ hn
            obtain ⟨m, hfind, hmn⟩ := ih (rest ++ enqueueChildren t) hnn' hfs' ⟨n, hmem, hname⟩
            exact ⟨m, by simp [findAux, hteq, hfind], hmn⟩

/-- `Tree.Find` on a non-empty tree is the breadth-first search seeded
with the head. -/
theorem find_eq_of_ne_nil (t : Tree) (nm : String) (h : t.head ≠ Element.nil) :
    t.Find nm = findAux (sizeE t.head) [t.head] nm := by
  unfold Tree.Find
  cases hth : t.head with
  | nil => exact absurd hth h
  | node d l r => rfl

/-- C1 counterexample: the history `Insert a; Insert b; Insert c` puts
the leaf `b` directly under the root next to the intermediate holding
`a` and `c` (5 nodes).  `Delete b` removes exactly one node (5 to 4,
never 2), and the root intermediate survives as a stub whose right
child slot is empty — the parent intermediate is not spliced out. -/
theorem mls_C1_counterexample :
    (∃ n ∈ nodesList ((((NewTree "g1").Insert "a" [1] 1).Insert "b" [2] 2).Insert
        "c" [3] 3).head, n.IsLeaf = true ∧ n.name = "b")
    ∧ sizeE ((((NewTree "g1").Insert "a" [1] 1).Insert "b" [2] 2).Insert
        "c" [3] 3).head = 5
    ∧ (((((NewTree "g1").Insert "a" [1] 1).Insert "b" [2] 2).Insert
          "c" [3] 3).Delete "b").map
        (fun u => (sizeE u.head, u.head.nodeType,
          u.head.rightChild == Element.nil, u.head.leftChild == Element.nil))
      = some (4, "intermediate", true, false) := by
  refine ⟨by decide, by decide, rfl⟩

/-- C1 (amended): for every tree containing a leaf named `x`, provided
every node carrying the name `x` is childless (so the breadth-first
name match deletes a leaf), `Delete x` succeeds and: the node count
decreases by exactly 1 — never 2, since the parent intermediate is left
in place as a stub rather than spliced out —, every other leaf name of
the original tree is still a leaf name of the result and is findable by
`Find`, and the surviving nodes' indices form the gapless set
`{0,…,new_size−1}`. -/
theorem mls_C1_amended (t : Tree) (x : String)
    (hx : ∃ n ∈ nodesList t.head, n.IsLeaf = true ∧ n.name = x)
    (hall : NamedAreLeaves x t.head) :
    ∃ t', t.Delete x = some t'
      ∧ sizeE t'.head + 1 = sizeE t.head
      ∧ (∀ nm, ¬nm = x → nm ∈ leafNamesL t.head →
          nm ∈ leafNamesL t'.head ∧ ∃ m, t'.Find nm = some m ∧ m.name = nm)
      ∧ (t'.head = Element.nil
          ∨ ((nodesList t'.head).map Element.nodeIndex).Perm
              (List.range (sizeE t'.head))) := by
  obtain ⟨n0, hn0, hleaf0, hname0⟩ := hx
  unfold Tree.Delete
  cases hth : t.head with
  | nil =>
      rw [hth] at hn0
      exact absurd hn0 (List.not_mem_nil n0)
  | node d l r =>
      rw [hth] at hn0 hall
      simp only [hth]
      have hfound : (deleteNode (Element.node d l r) x).2 = true :=
        (deleteNode_found_iff x (Element.node d l r)).2 ⟨n0, hn0, hname0⟩
      have hsz := deleteNode_size x (Element.node d l r) hall hfound
      have hlf := deleteNode_leafNames x (Element.node d l r) hall hfound
      rw [if_pos hfound]
      cases hE2 : renameIntermediateNodes t.rootPath
          (deleteNode (Element.node d l r) x).1 with
      | nil =>
          have hEnil : (deleteNode (Element.node d l r) x).1 = Element.nil :=
            (rename_nil_iff _ _).1 hE2
          refine ⟨_, rfl, ?_, ?_, Or.inl rfl⟩
          · show sizeE Element.nil + 1 = sizeE (Element.node d l r)
            rw [hEnil] at hsz
            exact hsz
          · intro nm hnm hm
            have hmE := hlf nm hnm hm
            rw [hEnil] at hmE
            exact absurd hmE (List.not_mem_nil nm)
      | node d1 l1 r1 =>
          have hH1ne : (Element.node d1 l1 r1) ≠ Element.nil := by
            intro h; cases h
          have hspec := reassign_spec (Element.node d1 l1 r1) hH1ne
          have hsizeR : sizeE (reassignNodeIndices (Element.node d1 l1 r1))
              = sizeE (deleteNode (Element.node d l r) x).1 := by
            rw [hspec.2.1, ← hE2, sizeE_rename]
          have hlnR : leafNamesL (reassignNodeIndices (Element.node d1 l1 r1))
              = leafNamesL (deleteNode (Element.node d l r) x).1 := by
            calc leafNamesL (reassignNodeIndices (Element.node d1 l1 r1))
                = leafNamesL (stripE (reassignNodeIndices (Element.node d1 l1 r1))) :=
                  (leafNamesL_stripE _).symm
              _ = leafNamesL (stripE (Element.node d1 l1 r1)) := by rw [hspec.1]
              _ = leafNamesL (Element.node d1 l1 r1) := leafNamesL_stripE _
              _ = leafNamesL (deleteNode (Element.node d l r) x).1 := by
                  rw [← hE2, leafNamesL_rename]
          have hRne : reassignNodeIndices (Element.node d1 l1 r1) ≠ Element.nil := by
            intro h
            have hstr := hspec.1
            rw [h] at hstr
            simp [stripE] at hstr
          refine ⟨_, rfl, ?_, ?_, ?_⟩
          · show sizeE (reassignNodeIndices (Element.node d1 l1 r1)) + 1
                = sizeE (Element.node d l r)
            rw [hsizeR]
            exact hsz
          · intro nm hnm hm
            have hmE := hlf nm hnm hm
            have hmR : nm ∈ leafNamesL (reassignNodeIndices (Element.node d1 l1 r1)) := by
              rw [hlnR]
              exact hmE
            refine ⟨hmR, ?_⟩
            obtain ⟨n1, hn1, hleaf1, hname1⟩ := (mem_leafNamesL _ nm).1 hmR
            show ∃ m, Tree.Find
              { t with head := reassignNodeIndices (Element.node d1 l1 r1),
                       nextNodeIndex := sizeE (reassignNodeIndices (Element.node d1 l1 r1)) }
              nm = some m ∧ m.name = nm
            rw [find_eq_of_ne_nil _ nm hRne]
            exact findAux_presence nm (sizeE (reassignNodeIndices (Element.node d1 l1 r1)))
              [reassignNodeIndices (Element.node d1 l1 r1)]
              (noNil_singleton hRne) (by simp [forestSize])
              ⟨n1, by simpa [nodesForest] using hn1, hname1⟩
          · exact Or.inr (canonicallyIndexed_perm
              (canonicallyIndexed_reassign _ hH1ne))

theorem mls_C1_witness :
    (∃ n ∈ nodesList ((((NewTree "w1").Insert "a" [1] 1).Insert "b" [2] 2).Insert
        "c" [3] 3).head, n.IsLeaf = true ∧ n.name = "c")
    ∧ NamedAreLeaves "c" ((((NewTree "w1").Insert "a" [1] 1).Insert "b" [2] 2).Insert
        "c" [3] 3).head
    ∧ ∃ t', ((((NewTree "w1").Insert "a" [1] 1).Insert "b" [2] 2).Insert
          "c" [3] 3).Delete "c" = some t'
        ∧ sizeE t'.head + 1
            = sizeE ((((NewTree "w1").Insert "a" [1] 1).Insert "b" [2] 2).Insert
                "c" [3] 3).head
        ∧ (∀ nm, ¬nm = "c" →
            nm ∈ leafNamesL ((((NewTree "w1").Insert "a" [1] 1).Insert "b" [2] 2).Insert
                "c" [3] 3).head →
            nm ∈ leafNamesL t'.head ∧ ∃ m, t'.Find nm = some m ∧ m.name = nm)
        ∧ (t'.head = Element.nil
            ∨ ((nodesList t'.head).map Element.nodeIndex).Perm
                (List.range (sizeE t'.head))) :=
  ⟨by decide, by unfold NamedAreLeaves; decide,
    mls_C1_amended _ "c" (by decide) (by unfold NamedAreLeaves; decide)⟩

theorem insub_self (a : Nat) : InSub a a := ⟨0, by simp⟩

theorem insub_le {a j : Nat} (h : InSub a j) : a ≤ j := by
  obtain ⟨k, hk⟩ := h
  have := Nat.div_le_self (j + 1) (2 ^ k)
  omega

theorem insub_left {a j : Nat} (h : InSub (2 * a + 1) j) : InSub a j := by
  obtain ⟨k, hk⟩ := h
  refine ⟨k + 1, ?_⟩
  rw [pow_succ, ← Nat.div_div_eq_div_mul, hk]
  omega

theorem insub_right {a j : Nat} (h : InSub (2 * a + 2) j) : InSub a j := by
  obtain ⟨k, hk⟩ := h
  refine ⟨k + 1, ?_⟩
  rw [pow_succ, ← Nat.div_div_eq_div_mul, hk]
  omega

theorem insub_disjoint {a j : Nat} (h1 : InSub (2 * a + 1) j)
    (h2 : InSub (2 * a + 2) j) : False := by
  obtain ⟨k1, hk1⟩ := h1
  obtain ⟨k2, hk2⟩ := h2
  rcases Nat.le_total k1 k2 with hle | hle
  · have hexp : k1 + (k2 - k1) = k2 := by omega
    have hd : (j + 1) / 2 ^ k2 = (j + 1) / 2 ^ k1 / 2 ^ (k2 - k1) := by
      rw [Nat.div_div_eq_div_mul, ← pow_add, hexp]
    rw [hk1] at hd
    have hle2 := Nat.div_le_self (2 * a + 1 + 1) (2 ^ (k2 - k1))
    omega
  · have hexp : k2 + (k1 - k2) = k1 := by omega
    have hd : (j + 1) / 2 ^ k1 = (j + 1) / 2 ^ k2 / 2 ^ (k1 - k2) := by
      rw [Nat.div_div_eq_div_mul, ← pow_add, hexp]
    rw [hk2] at hd
    cases hdk : k1 - k2 with
    | zero =>
        rw [hdk] at hd
        simp at hd
        omega
    | succ e =>
        rw [hdk] at hd
        have hsplit : (2 * a + 2 + 1) / 2 ^ (e + 1) = (2 * a + 2 + 1) / 2 / 2 ^ e := by
          rw [Nat.div_div_eq_div_mul]
          congr 1
          rw [pow_succ]
          ring
        have hhalf : (2 * a + 2 + 1) / 2 = a + 1 := by omega
        have hle3 := Nat.div_le_self (a + 1) (2 ^ e)
        rw [hsplit, hhalf] at hd
        omega

theorem heapFrom_components {d : NodeData} {l r : Element} {i : Nat}
    (h : heapFrom (Element.node d l r) i = true) :
    d.nodeIndex = i ∧ heapFrom l (2 * i + 1) = true
      ∧ heapFrom r (2 * i + 2) = true := by
  simp only [heapFrom, Bool.and_eq_true, beq_iff_eq] at h
  exact ⟨h.1.1, h.1.2, h.2⟩

theorem heapFrom_insub :
    ∀ (e : Element) (i : Nat), heapFrom e i = true →
      ∀ n ∈ nodesList e, InSub i n.nodeIndex := by
  intro e
  induction e with
  | nil => intro i _ n hn; exact absurd hn (List.not_mem_nil n)
  | node d l r ihl ihr =>
      intro i h n hn
      obtain ⟨hd, hl, hr⟩ := heapFrom_components h
      rw [nodesList_node] at hn
      rcases List.mem_cons.1 hn with hn | hn
      · subst hn
        have hni : (Element.node d l r).nodeIndex = i := by simpa using hd
        rw [hni]
        exact insub_self i
      · rcases List.mem_append.1 hn with hn | hn
        · exact insub_left (ihl (2 * i + 1) hl n hn)
        · exact insub_right (ihr (2 * i + 2) hr n hn)

theorem heapFrom_self :
    ∀ (e : Element) (i : Nat), heapFrom e i = true →
      ∀ n ∈ nodesList e, heapFrom n n.nodeIndex = true := by
  intro e
  induction e with
  | nil => intro i _ n hn; exact absurd hn (List.not_mem_nil n)
  | node d l r ihl ihr =>
      intro i h n hn
      rw [nodesList_node] at hn
      rcases List.mem_cons.1 hn with hn | hn
      · subst hn
        have hni : (Element.node d l r).nodeIndex = i := by
          simpa using (heapFrom_components h).1
        rw [hni]
        exact h
      · rcases List.mem_append.1 hn with hn | hn
        · exact ihl (2 * i + 1) (heapFrom_components h).2.1 n hn
        · exact ihr (2 * i + 2) (heapFrom_components h).2.2 n hn

theorem heapFrom_unique :
    ∀ (e : Element) (i : Nat), heapFrom e i = true →
      ∀ n ∈ nodesList e, ∀ m ∈ nodesList e,
        n.nodeIndex = m.nodeIndex → n = m := by
  intro e
  induction e with
  | nil => intro i _ n hn; exact absurd hn (List.not_mem_nil n)
  | node d l r ihl ihr =>
      intro i h n hn m hm hidx
      obtain ⟨hd, hl, hr⟩ := heapFrom_components h
      have hni : (Element.node d l r).nodeIndex = i := by simpa using hd
      rw [nodesList_node] at hn hm
      rcases List.mem_cons.1 hn with hn | hn
      · rcases List.mem_cons.1 hm with hm | hm
        · rw [hn, hm]
        · exfalso
          subst hn
          rcases List.mem_append.1 hm with hm | hm
          · have hge := insub_le (heapFrom_insub l (2 * i + 1) hl m hm)
            rw [hni] at hidx
            omega
          · have hge := insub_le (heapFrom_insub r (2 * i + 2) hr m hm)
            rw [hni] at hidx
            omega
      · rcases List.mem_cons.1 hm with hm | hm
        · exfalso
          subst hm
          rcases List.mem_append.1 hn with hn | hn
          · have hge := insub_le (heapFrom_insub l (2 * i + 1) hl n hn)
            rw [hni] at hidx
            omega
          · have hge := insub_le (heapFrom_insub r (2 * i + 2) hr n hn)
            rw [hni] at hidx
            omega
        · rcases List.mem_append.1 hn with hn1 | hn1 <;>
            rcases List.mem_append.1 hm with hm1 | hm1
          · exact ihl (2 * i + 1) hl n hn1 m hm1 hidx
          · exact (insub_disjoint
              (heapFrom_insub l (2 * i + 1) hl n hn1)
              (hidx ▸ heapFrom_insub r (2 * i + 2) hr m hm1)).elim
          · exact (insub_disjoint
              (hidx ▸ heapFrom_insub l (2 * i + 1) hl m hm1)
              (heapFrom_insub r (2 * i + 2) hr n hn1)).elim
          · exact ihr (2 * i + 2) hr n hn1 m hm1 hidx

theorem mem_nodesList_trans :
    ∀ e m n : Element, m ∈ nodesList e → n ∈ nodesList m → n ∈ nodesList e := by
  intro e
  induction e with
  | nil => intro m n hm; exact absurd hm (List.not_mem_nil m)
  | node d l r ihl ihr =>
      intro m n hm hn
      rw [nodesList_node] at hm ⊢
      rcases List.mem_cons.1 hm with hm | hm
      · subst hm
        rw [nodesList_node] at hn
        exact hn
      · rcases List.mem_append.1 hm with hm | hm
        · exact List.mem_cons_of_mem _ (List.mem_append_left _ (ihl m n hm hn))
        · exact List.mem_cons_of_mem _ (List.mem_append_right _ (ihr m n hm hn))

theorem getNodeByIndexAux_sound (tgt : Int) :
    ∀ f q m, NoNil q → getNodeByIndexAux f q tgt = some m →
      m ∈ nodesForest q ∧ (m.nodeIndex : Int) = tgt := by
  intro f
  induction f with
  | zero => intro q m _ h; simp [getNodeByIndexAux] at h
  | succ f ih =>
      intro q m hnn h
      cases q with
      | nil => simp [getNodeByIndexAux] at h
      | cons t rest =>
          rw [getNodeByIndexAux] at h
          by_cases hc : (t.nodeIndex : Int) = tgt
          · rw [if_pos hc] at h
            injection h with h
            subst h
            obtain ⟨ht, _⟩ := noNil_of_cons hnn
            refine ⟨?_, hc⟩
            cases t with
            | nil => exact absurd rfl ht
            | node d l r =>
                simp only [nodesForest]
                exact List.mem_append_left _ (by
                  rw [nodesList_node]
                  exact List.mem_cons_self _ _)
          · rw [if_neg hc] at h
            obtain ⟨hm, hidx⟩ := ih (rest ++ enqueueChildren t) m
              (noNil_append (noNil_of_cons hnn).2 (noNil_enqueueChildren t)) h
            refine ⟨?_, hidx⟩
            rw [nodesForest_append] at hm
            simp only [nodesForest]
            rcases List.mem_append.1 hm with hm | hm
            · exact List.mem_append_right _ hm
            · obtain ⟨ht, _⟩ := noNil_of_cons hnn
              cases t with
              | nil => exact absurd rfl ht
              | node d l r =>
                  rw [nodesForest_enqueueChildren] at hm
                  exact List.mem_append_left _ (by
                    rw [nodesList_node]
                    exact List.mem_cons_of_mem _ hm)

theorem getNodeByIndexAux_presence (tgt : Int) :
    ∀ f q, NoNil q → forestSize q ≤ f →
      (∃ n, n ∈ nodesForest q ∧ (n.nodeIndex : Int) = tgt) →
      ∃ m, getNodeByIndexAux f q tgt = some m ∧ (m.nodeIndex : Int) = tgt := by
  intro f
  induction f with
  | zero =>
      rintro q hnn hfs ⟨n, hn, _⟩
      cases q with
      | nil => exact absurd hn (List.not_mem_nil n)
      | cons t ts =>
          exfalso
          have ht := (noNil_of_cons hnn).1
          have := sizeE_pos_of_ne_nil ht
          simp only [forestSize] at hfs
          omega
  | succ f ih =>
      rintro q hnn hfs ⟨n, hn, hidx⟩
      cases q with
      | nil => exact absurd hn (List.not_mem_nil n)
      | cons t rest =>
          by_cases hteq : (t.nodeIndex : Int) = tgt
          · exact ⟨t, by simp [getNodeByIndexAux, hteq], hteq⟩
          · have hne : n ≠ t := by
              intro he
              exact hteq (he ▸ hidx)
            obtain ⟨ht, hrest⟩ := noNil_of_cons hnn
            have hnn' : NoNil (rest ++ enqueueChildren t) :=
              noNil_append hrest (noNil_enqueueChildren t)
            have hfs' : forestSize (rest ++ enqueueChildren t) ≤ f := by
              cases t with
              | nil => exact absurd rfl ht
              | node d l r =>
                  rw [forestSize_append, forestSize_enqueueChildren]
                  simp only [forestSize, sizeE] at hfs
                  omega
            have hmem : n ∈ nodesForest (rest ++ enqueueChildren t) := by
              rw [nodesForest_append]
              simp only [nodesForest] at hn
              rcases List.mem_append.1 hn with hn | hn
              · cases t with
                | nil => exact absurd rfl ht
                | node d l r =>
                    rw [nodesList_eq_self_enqueue] at hn
                    rcases List.mem_cons.1 hn with hn | hn
                    · exact absurd hn hne
                    · exact List.mem_append_right _ hn
              · exact List.mem_append_left _ hn
            obtain ⟨m, hfind, hmn⟩ := ih (rest ++ enqueueChildren t) hnn' hfs'
              ⟨n, hmem, hidx⟩
            exact ⟨m, by simp [getNodeByIndexAux, hteq, hfind], hmn⟩

/-- `Tree.GetNodeByIndex` on a non-empty tree is the breadth-first
search seeded with the head. -/
theorem getNodeByIndex_eq_of_ne_nil (t : Tree) (tgt : Int) (h : t.head ≠ Element.nil) :
    t.GetNodeByIndex tgt = getNodeByIndexAux (sizeE t.head) [t.head] tgt := by
  unfold Tree.GetNodeByIndex
  cases hth : t.head with
  | nil => exact absurd hth h
  | node d l r => rfl

/-- On a heap-labeled tree, `GetNodeByIndex` returns exactly the tree
node carrying the target index. -/
theorem getNodeByIndex_unique (t : Tree) (hhl : heapFrom t.head 0 = true)
    (c : Element) (hc : c ∈ nodesList t.head) (tgt : Int)
    (hidx : (c.nodeIndex : Int) = tgt) :
    t.GetNodeByIndex tgt = some c := by
  have hne : t.head ≠ Element.nil := by
    intro h
    rw [h] at hc
    exact absurd hc (List.not_mem_nil c)
  rw [getNodeByIndex_eq_of_ne_nil t tgt hne]
  obtain ⟨m, hmeq, hmidx⟩ := getNodeByIndexAux_presence tgt (sizeE t.head) [t.head]
    (noNil_singleton hne) (by simp [forestSize])
    ⟨c, by simpa [nodesForest] using hc, hidx⟩
  obtain ⟨hmmem, _⟩ := getNodeByIndexAux_sound tgt (sizeE t.head) [t.head] m
    (noNil_singleton hne) hmeq
  have hmmem2 : m ∈ nodesList t.head := by simpa [nodesForest] using hmmem
  have hmc : m = c := by
    refine heapFrom_unique t.head 0 hhl m hmmem2 c hc ?_
    have hcast : (m.nodeIndex : Int) = (c.nodeIndex : Int) := by rw [hmidx, hidx]
    exact_mod_cast hcast
  rw [hmeq, hmc]

/-- C6 counterexample: on the reachable tree obtained by
`Insert a; Insert b; Insert c; Delete a` (4 nodes, not a complete
shape), the unique node whose right child is the leaf `c` carries
breadth-first index 1 and `c` carries index 3, so the parent's
arithmetic `RightChildIndex` is 4 — but no node carries index 4 and
`GetNodeByIndex 4` returns `none` although the right child exists:
the arithmetic helpers do not navigate the breadth-first labeling of
non-complete shapes. -/
theorem mls_C6_counterexample :
    (((((NewTree "g6").Insert "a" [1] 1).Insert "b" [2] 2).Insert
        "c" [3] 3).Delete "a").map
      (fun u => ((u.Find "c").map Element.nodeIndex,
        (nodesList u.head).filterMap (fun q =>
          if q.rightChild.name = "c" then
            some (q.name, q.nodeIndex, q.RightChildIndex)
          else none),
        (u.GetNodeByIndex 4).isNone))
      = some (some 3, [("intermediate_a_c", 1, 4)], true) := by
  rfl

/-- C6 (amended): on every tree whose index labeling is the heap
labeling (root 0, children of `i` at `2i+1`/`2i+2` — true of the
breadth-first renumbering exactly on complete shapes), the arithmetic
helpers navigate correctly: for every parent node and each of its
existing children, `GetNodeByIndex` of the parent's
`LeftChildIndex`/`RightChildIndex` returns that child, and
`GetNodeByIndex` of the child's `ParentIndex` returns the parent. -/
theorem mls_C6_amended (t : Tree) (hhl : heapFrom t.head 0 = true) :
    ∀ p ∈ nodesList t.head, ∀ dc lc rc,
      (p.leftChild = Element.node dc lc rc →
          t.GetNodeByIndex p.LeftChildIndex = some (Element.node dc lc rc))
      ∧ (p.rightChild = Element.node dc lc rc →
          t.GetNodeByIndex p.RightChildIndex = some (Element.node dc lc rc))
      ∧ ((p.leftChild = Element.node dc lc rc ∨ p.rightChild = Element.node dc lc rc) →
          t.GetNodeByIndex (Element.node dc lc rc).ParentIndex = some p) := by
  intro p hp dc lc rc
  have hpl := heapFrom_self t.head 0 hhl p hp
  cases p with
  | nil =>
      refine ⟨?_, ?_, ?_⟩ <;> intro hc
      · cases hc
      · cases hc
      · rcases hc with hc | hc <;> cases hc
  | node dp lp rp =>
      obtain ⟨hd0, hll, hrr⟩ := heapFrom_components hpl
      refine ⟨?_, ?_, ?_⟩
      · intro hc
        simp only [leftChild_node] at hc
        subst hc
        obtain ⟨hdc, _, _⟩ := heapFrom_components hll
        refine getNodeByIndex_unique t hhl _ ?_ _ ?_
        · refine mem_nodesList_trans t.head _ _ hp ?_
          rw [nodesList_node]
          exact List.mem_cons_of_mem _ (List.mem_append_left _ (by
            rw [nodesList_node]
            exact List.mem_cons_self _ _))
        · simp only [Element.LeftChildIndex, nodeIndex_node]
          rw [hdc]
          simp [nodeIndex_node]
      · intro hc
        simp only [rightChild_node] at hc
        subst hc
        obtain ⟨hdc, _, _⟩ := heapFrom_components hrr
        refine getNodeByIndex_unique t hhl _ ?_ _ ?_
        · refine mem_nodesList_trans t.head _ _ hp ?_
          rw [nodesList_node]
          exact List.mem_cons_of_mem _ (List.mem_append_right _ (by
            rw [nodesList_node]
            exact List.mem_cons_self _ _))
        · simp only [Element.RightChildIndex, nodeIndex_node]
          rw [hdc]
          simp [nodeIndex_node]
      · intro hc
        rcases hc with hc | hc
        · simp only [leftChild_node] at hc
          subst hc
          obtain ⟨hdc, _, _⟩ := heapFrom_components hll
          refine getNodeByIndex_unique t hhl _ hp _ ?_
          simp only [Element.ParentIndex, nodeIndex_node, hdc]
          rw [if_neg (by omega)]
          congr 1
          omega
        · simp only [rightChild_node] at hc
          subst hc
          obtain ⟨hdc, _, _⟩ := heapFrom_components hrr
          refine getNodeByIndex_unique t hhl _ hp _ ?_
          simp only [Element.ParentIndex, nodeIndex_node, hdc]
          rw [if_neg (by omega)]
          congr 1
          omega

theorem mls_C6_witness :
    heapFrom (((NewTree "w6").Insert "a" [1] 1).Insert "b" [2] 2).head 0 = true
    ∧ ∀ p ∈ nodesList (((NewTree "w6").Insert "a" [1] 1).Insert "b" [2] 2).head,
        ∀ dc lc rc,
      (p.leftChild = Element.node dc lc rc →
          (((NewTree "w6").Insert "a" [1] 1).Insert "b" [2] 2).GetNodeByIndex
            p.LeftChildIndex = some (Element.node dc lc rc))
      ∧ (p.rightChild = Element.node dc lc rc →
          (((NewTree "w6").Insert "a" [1] 1).Insert "b" [2] 2).GetNodeByIndex
            p.RightChildIndex = some (Element.node dc lc rc))
      ∧ ((p.leftChild = Element.node dc lc rc ∨ p.rightChild = Element.node dc lc rc) →
          (((NewTree "w6").Insert "a" [1] 1).Insert "b" [2] 2).GetNodeByIndex
            (Element.node dc lc rc).ParentIndex = some p) :=
  ⟨by decide, mls_C6_amended _ (by decide)⟩

end disk
